import Mathlib

/-!
# External scanner of tree-sitter-svelte (`src/scanner.cc`)

A shallow embedding of `Scanner2`: the tag stack, its serialisation, the
primitive scanners and the dispatcher `scan`, followed by theorems about them.

Conventions of the embedding.

* A `char` and a byte of the serialisation buffer are natural numbers (the
  value of the byte, 0..255); a code point of the lexer (`int32_t lookahead`)
  is a natural number, and `0` is the lookahead at the end of the stream.
* `vector<Tag> tags` is a `List Tag` whose last element is `tags.back()`.
* The wide-character functions of `<cwctype>` are those of the "C" locale.
* The header `tag.hh` and the constant `TREE_SITTER_SERIALIZATION_BUFFER_SIZE`
  are not part of the sources; they are the parameters `TagHeader` and `C`.
* A scanner that can read or pop past the end of a container returns an
  `Except Fault`; the other scanners are total functions.
-/

namespace Svelte

/-! ## Tags (`tag.hh`) -/

/-- Modelled from the spec: the type `Tag` of the missing header `tag.hh` (spec,
Data model: a kind and a name). `type` is the numeric value of the `TagType`
enumerator, which `serialize` stores in one byte, and `custom_tag_name` holds
the bytes of the `std::string` of the same name. -/
structure Tag where
  type : Nat
  custom_tag_name : List Nat
deriving DecidableEq, Repr

/-- Modelled from the spec: the header `tag.hh` is missing from the sources, so
what `scanner.cc` uses of it is collected here. `CUSTOM`, `SCRIPT` and `STYLE`
are enumerators of `TagType` (spec, TagKind), `default_tag` is `Tag()` (the
"default/empty tag"), `is_void`, `can_contain` and `for_name` are the
functions of Tag Classification (`classify` is `Tag::for_name`) and `eq` is
`operator==` on tags. -/
structure TagHeader where
  CUSTOM : Nat
  SCRIPT : Nat
  STYLE : Nat
  default_tag : Tag
  is_void : Tag → Bool
  can_contain : Tag → Tag → Bool
  for_name : List Nat → Tag
  eq : Tag → Tag → Bool
  script_ne_style : SCRIPT ≠ STYLE

/-! ## Serialisation -/

/-- The constant `UINT16_MAX`. -/
def UINT16_MAX : Nat := 65535

/-- The constant `UINT8_MAX`. -/
def UINT8_MAX : Nat := 255

/-- The two bytes that `memcpy` writes for a `uint16_t` (little endian). -/
def u16_bytes (n : Nat) : List Nat := [n % 256, n / 256 % 256]

/-- The `uint16_t` that `memcpy` reads from `buffer[i]`, `buffer[i + 1]`. -/
def u16_read (buffer : List Nat) (i : Nat) : Nat :=
  buffer.getD i 0 + 256 * buffer.getD (i + 1) 0

/-- The C function `strncpy(dst, src, n)` as the `n` bytes it stores: the bytes
of `src` up to its first NUL, cut at `n`, padded with NUL bytes up to `n`. -/
def strncpy (src : List Nat) (n : Nat) : List Nat :=
  (src.takeWhile (fun b => b != 0)).take n ++
    List.replicate (n - (src.takeWhile (fun b => b != 0)).length) 0

/-- Function `copy_custom_tag`: the bytes stored at `buffer`. -/
def copy_custom_tag (str : List Nat) (length : Nat) : List Nat :=
  strncpy str length

/-- The `for` loop of `Scanner2::serialize` over the tags not yet visited.
`i` is the write index, `written` the bytes stored at `buffer[4..i)` and
`serialized_tag_count` the loop counter; `break` returns the state as it is.
`unsigned name_length` takes the size modulo `2^32`; the index `i` stays below
the capacity once a record is stored, so the sums `i + 2 + name_length` and
`i + 1` do not wrap. -/
def serialize_loop (H : TagHeader) (C : Nat) :
    List Tag → Nat → List Nat → Nat → Nat × List Nat × Nat
  | [], i, written, serialized_tag_count => (i, written, serialized_tag_count)
  | tag :: rest, i, written, serialized_tag_count =>
    if tag.type = H.CUSTOM then
      let name_length := tag.custom_tag_name.length % 4294967296
      let name_length := if name_length > UINT8_MAX then UINT8_MAX else name_length
      if i + 2 + name_length ≥ C then (i, written, serialized_tag_count)
      else
        serialize_loop H C rest (i + 2 + name_length)
          (written ++ [tag.type % 256, name_length % 256]
            ++ copy_custom_tag tag.custom_tag_name name_length)
          (serialized_tag_count + 1)
    else
      if i + 1 ≥ C then (i, written, serialized_tag_count)
      else
        serialize_loop H C rest (i + 1) (written ++ [tag.type % 256])
          (serialized_tag_count + 1)

/-- Method `Scanner2::serialize` with buffer capacity `C`: the bytes of
`buffer[0..i)` after the call and the returned length `i`. -/
def serialize (H : TagHeader) (C : Nat) (tags : List Tag) : List Nat × Nat :=
  let tag_count := if tags.length > UINT16_MAX then UINT16_MAX else tags.length
  let r := serialize_loop H C (tags.take tag_count) 4 [] 0
  (u16_bytes r.2.2 ++ u16_bytes tag_count ++ r.2.1, r.1)

/-- The conversion `static_cast<TagType>(buffer[i])`. The enumerators of
`TagType` are below 128, where the conversion gives back the value of the byte
whether `char` is signed or not. -/
def char_to_TagType (b : Nat) : Nat := b

/-- The `for` loop of `Scanner2::deserialize`: the first argument counts the
iterations left (`serialized_tag_count - j`), `i` is the read index. -/
def deserialize_loop (H : TagHeader) (buffer : List Nat) :
    Nat → Nat → Nat → List Tag → List Tag
  | 0, _, _, tags => tags
  | n + 1, j, i, tags =>
    let type := char_to_TagType (buffer.getD i 0)
    if type = H.CUSTOM then
      let name_length := buffer.getD (i + 1) 0
      let name := (buffer.drop (i + 2)).take name_length
      deserialize_loop H buffer n (j + 1) (i + 2 + name_length)
        (tags.set j { type := type, custom_tag_name := name })
    else
      deserialize_loop H buffer n (j + 1) (i + 1)
        (tags.set j { type := type,
                      custom_tag_name := (tags.getD j H.default_tag).custom_tag_name })

/-- Method `Scanner2::deserialize`: the tag stack after the call. -/
def deserialize (H : TagHeader) (buffer : List Nat) (length : Nat) : List Tag :=
  if length > 0 then
    let serialized_tag_count := u16_read buffer 0
    let tag_count := u16_read buffer 2
    deserialize_loop H buffer serialized_tag_count 0 4
      (List.replicate tag_count H.default_tag)
  else []

/-! ## The lexer (`TSLexer`) and the wide-character functions -/

/-- The enumeration `TokenType`. -/
inductive TokenType
  | START_TAG_NAME
  | SCRIPT_START_TAG_NAME
  | STYLE_START_TAG_NAME
  | END_TAG_NAME
  | ERRONEOUS_END_TAG_NAME
  | SELF_CLOSING_TAG_DELIMITER
  | IMPLICIT_END_TAG
  | RAW_TEXT
  | RAW_TEXT_EXPR
  | RAW_TEXT_AWAIT
  | RAW_TEXT_EACH
  | COMMENT
deriving DecidableEq, Repr

/-- The lexer handed to the scanner. `input` holds the code points from the
cursor on, `pos` counts the code points consumed, `token_start` is the position
after the last character skipped as whitespace, `token_end` is the position
recorded by the last `mark_end` (if any) and `result_symbol` is the token kind
assigned during the call (if any). -/
structure TSLexer where
  input : List Nat
  pos : Nat
  token_start : Nat
  token_end : Option Nat
  result_symbol : Option TokenType
deriving DecidableEq, Repr

namespace TSLexer

/-- Field `lookahead`: the next code point, `0` at the end of the stream. -/
def lookahead (lexer : TSLexer) : Nat := lexer.input.headD 0

/-- Callback `advance(lexer, skip)`; it does nothing at the end of the stream. -/
def advance (lexer : TSLexer) (skip : Bool) : TSLexer :=
  match lexer.input with
  | [] => lexer
  | _ :: cs =>
    { lexer with
      input := cs
      pos := lexer.pos + 1
      token_start := if skip then lexer.pos + 1 else lexer.token_start }

/-- Callback `mark_end(lexer)`. -/
def mark_end (lexer : TSLexer) : TSLexer :=
  { lexer with token_end := some lexer.pos }

/-- The assignment `lexer->result_symbol = symbol`. -/
def set_result_symbol (lexer : TSLexer) (symbol : TokenType) : TSLexer :=
  { lexer with result_symbol := some symbol }

end TSLexer

/-- The C function `iswalnum` in the "C" locale. -/
def iswalnum (c : Nat) : Bool :=
  (48 ≤ c && c ≤ 57) || (65 ≤ c && c ≤ 90) || (97 ≤ c && c ≤ 122)

/-- The C function `iswspace` in the "C" locale: space, `\t`, `\n`, `\v`, `\f`, `\r`. -/
def iswspace (c : Nat) : Bool := c == 32 || (9 ≤ c && c ≤ 13)

/-- The C function `towupper` in the "C" locale. -/
def towupper (c : Nat) : Nat := if 97 ≤ c ∧ c ≤ 122 then c - 32 else c

/-- The conversion of a code point to `char` (`char c = lexer->lookahead`,
`tag_name += ...`): the low eight bits. -/
def to_char (c : Nat) : Nat := c % 256

/-! ## The scanner -/

/-- The state of `struct Scanner2`: the vector `tags`, innermost tag last. -/
structure Scanner2 where
  tags : List Tag
deriving DecidableEq, Repr

/-- What the C++ standard leaves undefined and the scanner can run into. -/
inductive Fault
  | read_back_of_empty_tags
  | pop_back_of_empty_tags
  | read_past_word
  | out_of_fuel
deriving DecidableEq, Repr

instance {α : Type} [DecidableEq α] : DecidableEq (Except Fault α) := fun a b =>
  match a, b with
  | Except.ok x, Except.ok y =>
    if h : x = y then isTrue (by rw [h]) else isFalse (fun h2 => h (Except.ok.inj h2))
  | Except.error x, Except.error y =>
    if h : x = y then isTrue (by rw [h]) else isFalse (fun h2 => h (Except.error.inj h2))
  | Except.ok _, Except.error _ => isFalse (fun h => Except.noConfusion h)
  | Except.error _, Except.ok _ => isFalse (fun h => Except.noConfusion h)

/-- A value of type `Tag *`: `NULL` or the address of a tag in the vector. -/
inductive TagPtr
  | null
  | valid (tag : Tag)
deriving DecidableEq, Repr

/-- The expression `&tags.back()`. The call `tags.back()` on an empty vector is
undefined, so it is a fault there, whether or not the address is read later. -/
def address_of_back (tags : List Tag) : Except Fault TagPtr :=
  match tags.getLast? with
  | some tag => Except.ok (TagPtr.valid tag)
  | none => Except.error Fault.read_back_of_empty_tags

/-- The call `tags.pop_back()`. -/
def pop_back (tags : List Tag) : Except Fault (List Tag) :=
  if tags.isEmpty then Except.error Fault.pop_back_of_empty_tags
  else Except.ok tags.dropLast

/-- The test `iswalnum(c) || c == '-' || c == ':'` of `scan_tag_name`. -/
def is_tag_name_char (c : Nat) : Bool := iswalnum c || c == 45 || c == 58

/-- The `while` loop of `Scanner2::scan_tag_name`. -/
def scan_tag_name_loop : Nat → TSLexer → List Nat → List Nat × TSLexer
  | 0, lexer, tag_name => (tag_name, lexer)
  | fuel + 1, lexer, tag_name =>
    if iswalnum lexer.lookahead || lexer.lookahead == 45 || lexer.lookahead == 58 then
      scan_tag_name_loop fuel (lexer.advance false)
        (tag_name ++ [to_char (towupper lexer.lookahead)])
    else (tag_name, lexer)

/-- Method `Scanner2::scan_tag_name`. Every iteration consumes a code point, so
the loop ends within `input.length` iterations. -/
def scan_tag_name (lexer : TSLexer) : List Nat × TSLexer :=
  scan_tag_name_loop lexer.input.length lexer []

/-- The `while` loop of `Scanner2::scan_comment`; in `case '>'` with fewer than
two dashes control falls through to `default`. A run of dashes is shorter than
`2^32` (the lexer addresses its input with 32-bit offsets), so `dashes` does
not wrap. -/
def scan_comment_loop : Nat → TSLexer → Nat → Bool × TSLexer
  | 0, lexer, _ => (false, lexer)
  | fuel + 1, lexer, dashes =>
    if lexer.lookahead = 0 then (false, lexer)
    else if lexer.lookahead = 45 then
      scan_comment_loop fuel (lexer.advance false) (dashes + 1)
    else if lexer.lookahead = 62 ∧ dashes ≥ 2 then
      (true, ((lexer.set_result_symbol TokenType.COMMENT).advance false).mark_end)
    else
      scan_comment_loop fuel (lexer.advance false) 0

/-- Method `Scanner2::scan_comment`. -/
def scan_comment (lexer : TSLexer) : Bool × TSLexer :=
  if lexer.lookahead ≠ 45 then (false, lexer)
  else
    let lexer := lexer.advance false
    if lexer.lookahead ≠ 45 then (false, lexer)
    else
      let lexer := lexer.advance false
      scan_comment_loop lexer.input.length lexer 0

/-- The string `"</SCRIPT"`. -/
def SCRIPT_END : List Nat := [60, 47, 83, 67, 82, 73, 80, 84]

/-- The string `"</STYLE"`. -/
def STYLE_END : List Nat := [60, 47, 83, 84, 89, 76, 69]

/-- The `while` loop of `Scanner2::scan_raw_text`. -/
def scan_raw_text_loop (end_delimiter : List Nat) : Nat → TSLexer → Nat → TSLexer
  | 0, lexer, _ => lexer
  | fuel + 1, lexer, delimiter_index =>
    if lexer.lookahead = 0 then lexer
    else if towupper lexer.lookahead = end_delimiter.getD delimiter_index 0 then
      if delimiter_index + 1 = end_delimiter.length then lexer
      else scan_raw_text_loop end_delimiter fuel (lexer.advance false) (delimiter_index + 1)
    else
      scan_raw_text_loop end_delimiter fuel ((lexer.advance false).mark_end) 0

/-- Method `Scanner2::scan_raw_text`. -/
def scan_raw_text (H : TagHeader) (self : Scanner2) (lexer : TSLexer) :
    Bool × Scanner2 × TSLexer :=
  match self.tags.getLast? with
  | none => (false, self, lexer)
  | some back =>
    let lexer := lexer.mark_end
    let end_delimiter := if back.type = H.SCRIPT then SCRIPT_END else STYLE_END
    let lexer := scan_raw_text_loop end_delimiter lexer.input.length lexer 0
    (true, self, lexer.set_result_symbol TokenType.RAW_TEXT)

/-- Method `Scanner2::scan_implicit_end_tag`. The first statement sets `parent`
to `NULL` when `tags.empty() == 0`, that is when the vector is not empty, and to
`&tags.back()` otherwise, that is for the empty vector, where evaluating
`tags.back()` is a fault; so `parent` is `NULL` whenever the method goes on. -/
def scan_implicit_end_tag (H : TagHeader) (self : Scanner2) (lexer : TSLexer) :
    Except Fault (Bool × Scanner2 × TSLexer) :=
  match (if (self.tags.isEmpty == false) then Except.ok TagPtr.null
      else address_of_back self.tags) with
  | Except.error fault => Except.error fault
  | Except.ok parent =>
    let after_slash (is_closing_tag : Bool) (lexer : TSLexer) :
        Except Fault (Bool × Scanner2 × TSLexer) :=
      let (tag_name, lexer) := scan_tag_name lexer
      if tag_name.length = 0 then Except.ok (false, self, lexer)
      else
        let next_tag := H.for_name tag_name
        if is_closing_tag then
          if self.tags.length ≠ 0 ∧
              (self.tags.getLast?.map (fun back => H.eq back next_tag)) = some true then
            Except.ok (false, self, lexer)
          else if self.tags.any (fun tag => H.eq tag next_tag) then
            match pop_back self.tags with
            | Except.error fault => Except.error fault
            | Except.ok tags =>
              Except.ok (true, { tags := tags },
                lexer.set_result_symbol TokenType.IMPLICIT_END_TAG)
          else Except.ok (false, self, lexer)
        else
          match parent with
          | TagPtr.null => Except.ok (false, self, lexer)
          | TagPtr.valid tag =>
            if !H.can_contain tag next_tag then
              match pop_back self.tags with
              | Except.error fault => Except.error fault
              | Except.ok tags =>
                Except.ok (true, { tags := tags },
                  lexer.set_result_symbol TokenType.IMPLICIT_END_TAG)
            else Except.ok (false, self, lexer)
    if lexer.lookahead = 47 then
      after_slash true (lexer.advance false)
    else
      match parent with
      | TagPtr.null => after_slash false lexer
      | TagPtr.valid tag =>
        if H.is_void tag then
          match pop_back self.tags with
          | Except.error fault => Except.error fault
          | Except.ok tags =>
            Except.ok (true, { tags := tags },
              lexer.set_result_symbol TokenType.IMPLICIT_END_TAG)
        else after_slash false lexer

/-- Method `Scanner2::scan_start_tag_name`. -/
def scan_start_tag_name (H : TagHeader) (self : Scanner2) (lexer : TSLexer) :
    Bool × Scanner2 × TSLexer :=
  let (tag_name, lexer) := scan_tag_name lexer
  if tag_name.isEmpty then (false, self, lexer)
  else
    let tag := H.for_name tag_name
    let self : Scanner2 := { tags := self.tags ++ [tag] }
    if tag.type = H.SCRIPT then
      (true, self, lexer.set_result_symbol TokenType.SCRIPT_START_TAG_NAME)
    else if tag.type = H.STYLE then
      (true, self, lexer.set_result_symbol TokenType.STYLE_START_TAG_NAME)
    else
      (true, self, lexer.set_result_symbol TokenType.START_TAG_NAME)

/-- Method `Scanner2::scan_end_tag_name`. -/
def scan_end_tag_name (H : TagHeader) (self : Scanner2) (lexer : TSLexer) :
    Bool × Scanner2 × TSLexer :=
  let (tag_name, lexer) := scan_tag_name lexer
  if tag_name.isEmpty then (false, self, lexer)
  else
    let tag := H.for_name tag_name
    match self.tags.getLast? with
    | some back =>
      if H.eq back tag then
        (true, { tags := self.tags.dropLast },
          lexer.set_result_symbol TokenType.END_TAG_NAME)
      else (true, self, lexer.set_result_symbol TokenType.ERRONEOUS_END_TAG_NAME)
    | none => (true, self, lexer.set_result_symbol TokenType.ERRONEOUS_END_TAG_NAME)

/-- Method `Scanner2::scan_self_closing_tag_delimiter`. -/
def scan_self_closing_tag_delimiter (self : Scanner2) (lexer : TSLexer) :
    Bool × Scanner2 × TSLexer :=
  let lexer := lexer.advance false
  if lexer.lookahead = 62 then
    let lexer := lexer.advance false
    if !self.tags.isEmpty then
      (true, { tags := self.tags.dropLast },
        lexer.set_result_symbol TokenType.SELF_CLOSING_TAG_DELIMITER)
    else (true, self, lexer)
  else (false, self, lexer)

/-- The string `"then"`. -/
def THEN : List Nat := [116, 104, 101, 110]

/-- The string `"as"`. -/
def AS : List Nat := [97, 115]

/-- The read `word[i]` of a `std::string`: a character of the string, the
terminator `'\0'` at `i = word.size()`, and no value beyond. -/
def word_at (word : List Nat) (i : Nat) : Option Nat :=
  if i < word.length then some (word.getD i 0)
  else if i = word.length then some 0
  else none

/-- The `while` loop of `Scanner2::scan_word`; the result carries the final `c`. -/
def scan_word_loop (word : List Nat) :
    Nat → TSLexer → Nat → Nat → Except Fault (Nat × TSLexer)
  | 0, _, _, _ => Except.error Fault.out_of_fuel
  | fuel + 1, lexer, c, i =>
    match word_at word i with
    | none => Except.error Fault.read_past_word
    | some w =>
      if c = w then
        scan_word_loop word fuel (lexer.advance false)
          (to_char (lexer.advance false).lookahead) (i + 1)
      else Except.ok (c, lexer)

/-- Method `Scanner2::scan_word`. The index `i` grows by one in every
iteration and the read at `word.size() + 1` is a fault, so `word.size() + 2`
iterations are enough. -/
def scan_word (lexer : TSLexer) (word : List Nat) : Except Fault (Bool × TSLexer) :=
  match scan_word_loop word (word.length + 2) lexer (to_char lexer.lookahead) 0 with
  | Except.error fault => Except.error fault
  | Except.ok (c, lexer) => Except.ok (c == 123 || iswspace c, lexer)

/-- The inner `while` loop of `Scanner2::scan_raw_text_expr` (quoted text): the
lexer and `c` when the loop is left. The statement `if (c == 0) return false`
inside `while (c)` is never taken. -/
def scan_quoted_loop (quote : Nat) : Nat → TSLexer → Nat → TSLexer × Nat
  | 0, lexer, c => (lexer, c)
  | fuel + 1, lexer, c =>
    if c = 0 then (lexer, c)
    else
      let lexer := if c = 92 then lexer.advance false else lexer
      if c = quote then (lexer, c)
      else
        let lexer := lexer.advance false
        scan_quoted_loop quote fuel lexer (to_char lexer.lookahead)

/-- The outer `while` loop of `Scanner2::scan_raw_text_expr`. Every iteration
that does not return ends with `lexer->advance; c = lexer->lookahead`. The
counter `inner_curly_start` is an `int`; it stays far from `2^31`. -/
def scan_raw_text_expr_loop (extraToken : TokenType) :
    Nat → TSLexer → Nat → Int → Except Fault (Bool × TSLexer)
  | 0, _, _, _ => Except.error Fault.out_of_fuel
  | fuel + 1, lexer, c, inner_curly_start =>
    let next (lexer : TSLexer) (inner_curly_start : Int) :=
      scan_raw_text_expr_loop extraToken fuel (lexer.advance false)
        (to_char (lexer.advance false).lookahead) inner_curly_start
    if c = 0 then Except.ok (false, lexer)
    else if c = 123 then next lexer (inner_curly_start + 1)
    else if c = 125 then
      if inner_curly_start ≤ 0 then
        Except.ok (true, lexer.mark_end.set_result_symbol TokenType.RAW_TEXT_EXPR)
      else next lexer (inner_curly_start - 1)
    else if c = 10 ∨ c = 9 ∨ c = 41 ∨ c = 32 then
      if extraToken = TokenType.RAW_TEXT_AWAIT ∨ extraToken = TokenType.RAW_TEXT_EACH then
        let lexer := lexer.mark_end.advance false
        let c := to_char lexer.lookahead
        if extraToken = TokenType.RAW_TEXT_AWAIT ∧ c = 116 then
          match scan_word lexer THEN with
          | Except.error fault => Except.error fault
          | Except.ok (true, lexer) =>
            Except.ok (true, lexer.set_result_symbol TokenType.RAW_TEXT_AWAIT)
          | Except.ok (false, lexer) => next lexer inner_curly_start
        else if extraToken = TokenType.RAW_TEXT_EACH ∧ c = 97 then
          match scan_word lexer AS with
          | Except.error fault => Except.error fault
          | Except.ok (true, lexer) =>
            Except.ok (true, lexer.set_result_symbol TokenType.RAW_TEXT_EACH)
          | Except.ok (false, lexer) => next lexer inner_curly_start
        else next lexer inner_curly_start
      else next lexer inner_curly_start
    else if c = 34 ∨ c = 39 ∨ c = 96 then
      let lexer := lexer.advance false
      let lexer := (scan_quoted_loop c (lexer.input.length + 1) lexer
        (to_char lexer.lookahead)).1
      next lexer inner_curly_start
    else next lexer inner_curly_start

/-- Method `Scanner2::scan_raw_text_expr`. An iteration that goes on has
consumed a code point, so `input.length + 1` iterations are enough. -/
def scan_raw_text_expr (lexer : TSLexer) (extraToken : TokenType) :
    Except Fault (Bool × TSLexer) :=
  scan_raw_text_expr_loop extraToken (lexer.input.length + 1) lexer
    (to_char lexer.lookahead) 0

/-- The loop `while (iswspace(lexer->lookahead)) lexer->advance(lexer, true)`. -/
def skip_whitespace : Nat → TSLexer → TSLexer
  | 0, lexer => lexer
  | fuel + 1, lexer =>
    if iswspace lexer.lookahead then skip_whitespace fuel (lexer.advance true)
    else lexer

/-- Pairs the tag stack with the result of a scanner that does not use it. -/
def with_scanner (self : Scanner2) (r : Except Fault (Bool × TSLexer)) :
    Except Fault (Bool × Scanner2 × TSLexer) :=
  match r with
  | Except.error fault => Except.error fault
  | Except.ok (b, lexer) => Except.ok (b, self, lexer)

/-- Method `Scanner2::scan` (the output to `stdout` is left out). -/
def scan (H : TagHeader) (self : Scanner2) (lexer : TSLexer)
    (valid_symbols : TokenType → Bool) : Except Fault (Bool × Scanner2 × TSLexer) :=
  let lexer := skip_whitespace lexer.input.length lexer
  if valid_symbols TokenType.RAW_TEXT_EXPR && valid_symbols TokenType.RAW_TEXT_AWAIT then
    with_scanner self (scan_raw_text_expr lexer TokenType.RAW_TEXT_AWAIT)
  else if valid_symbols TokenType.RAW_TEXT_EXPR && valid_symbols TokenType.RAW_TEXT_EACH then
    with_scanner self (scan_raw_text_expr lexer TokenType.RAW_TEXT_EACH)
  else if valid_symbols TokenType.RAW_TEXT_EXPR then
    let c := to_char lexer.lookahead
    if c = 64 ∨ c = 35 ∨ c = 58 ∨ c = 47 then Except.ok (false, self, lexer)
    else with_scanner self (scan_raw_text_expr lexer TokenType.RAW_TEXT_EXPR)
  else if valid_symbols TokenType.RAW_TEXT && !valid_symbols TokenType.START_TAG_NAME &&
      !valid_symbols TokenType.END_TAG_NAME then
    Except.ok (scan_raw_text H self lexer)
  else if lexer.lookahead = 60 then
    let lexer := (lexer.mark_end).advance false
    if lexer.lookahead = 33 then
      let r := scan_comment (lexer.advance false)
      Except.ok (r.1, self, r.2)
    else if valid_symbols TokenType.IMPLICIT_END_TAG then
      scan_implicit_end_tag H self lexer
    else Except.ok (false, self, lexer)
  else if lexer.lookahead = 0 then
    if valid_symbols TokenType.IMPLICIT_END_TAG then
      scan_implicit_end_tag H self lexer
    else Except.ok (false, self, lexer)
  else if lexer.lookahead = 47 then
    if valid_symbols TokenType.SELF_CLOSING_TAG_DELIMITER then
      Except.ok (scan_self_closing_tag_delimiter self lexer)
    else Except.ok (false, self, lexer)
  else
    if (valid_symbols TokenType.START_TAG_NAME || valid_symbols TokenType.END_TAG_NAME) &&
        !valid_symbols TokenType.RAW_TEXT then
      if valid_symbols TokenType.START_TAG_NAME then
        Except.ok (scan_start_tag_name H self lexer)
      else Except.ok (scan_end_tag_name H self lexer)
    else Except.ok (false, self, lexer)

/-! ## A tag table for the examples -/

/-- Modelled from the spec: `tag.hh` is missing, so the examples use a small
table in its place with the tags the spec names: the void kind `BR`, the
kinds `DIV`, `SPAN`, `SCRIPT`, `STYLE` and `CUSTOM` for every other name. Void
kinds come before `END_OF_VOID_TAGS`, which is also the kind of `Tag()`; tags
are equal when their kinds are and, for `CUSTOM`, their names; `can_contain` has
no exclusion rule. Names are compared in upper case. -/
def sample_header : TagHeader where
  CUSTOM := 6
  SCRIPT := 3
  STYLE := 5
  default_tag := { type := 1, custom_tag_name := [] }
  is_void := fun tag => tag.type < 1
  can_contain := fun _ _ => true
  for_name := fun name =>
    if name = [66, 82] then { type := 0, custom_tag_name := [] }
    else if name = [68, 73, 86] then { type := 2, custom_tag_name := [] }
    else if name = [83, 67, 82, 73, 80, 84] then { type := 3, custom_tag_name := [] }
    else if name = [83, 80, 65, 78] then { type := 4, custom_tag_name := [] }
    else if name = [83, 84, 89, 76, 69] then { type := 5, custom_tag_name := [] }
    else { type := 6, custom_tag_name := name }
  eq := fun a b =>
    a.type == b.type && (a.type != 6 || a.custom_tag_name == b.custom_tag_name)
  script_ne_style := by decide

/-- The tag `BR` of `sample_header`. -/
def BR : Tag := { type := 0, custom_tag_name := [] }

/-- The tag `DIV` of `sample_header`. -/
def DIV : Tag := { type := 2, custom_tag_name := [] }

/-- The tag `SCRIPT` of `sample_header`. -/
def SCRIPT : Tag := { type := 3, custom_tag_name := [] }

/-- The tag `SPAN` of `sample_header`. -/
def SPAN : Tag := { type := 4, custom_tag_name := [] }

/-- The tag `STYLE` of `sample_header`. -/
def STYLE : Tag := { type := 5, custom_tag_name := [] }

/-- A `CUSTOM` tag of `sample_header` with the given name. -/
def CUSTOM (name : List Nat) : Tag := { type := 6, custom_tag_name := name }

/-- A stack of four `CUSTOM` tags whose names have 255 bytes: with capacity 1024
only three of their records are stored. -/
def four_long_names : List Tag :=
  [CUSTOM (List.replicate 255 65), CUSTOM (List.replicate 255 66),
    CUSTOM (List.replicate 255 67), CUSTOM (List.replicate 255 68)]

/-- A stack of four `CUSTOM` tags, the first with a name of 256 bytes: with
capacity 1024 only three of their records are stored. -/
def four_longer_names : List Tag :=
  [CUSTOM (List.replicate 256 65), CUSTOM (List.replicate 255 66),
    CUSTOM (List.replicate 255 67), CUSTOM (List.replicate 255 68)]

/-- A valid-symbol set in which only `IMPLICIT_END_TAG` is acceptable. -/
def only_implicit_end_tag (symbol : TokenType) : Bool :=
  symbol == TokenType.IMPLICIT_END_TAG

/-- A lexer at the start of a scan over the given code points. -/
def lexer_on (input : List Nat) : TSLexer :=
  { input := input, pos := 0, token_start := 0, token_end := none, result_symbol := none }

/-! ## Definitions used to state the properties -/

/-- The bytes of the record that the loop of `serialize` stores for one tag. -/
def record (H : TagHeader) (tag : Tag) : List Nat :=
  if tag.type = H.CUSTOM then
    [tag.type % 256, (min (tag.custom_tag_name.length % 4294967296) UINT8_MAX) % 256]
      ++ copy_custom_tag tag.custom_tag_name
          (min (tag.custom_tag_name.length % 4294967296) UINT8_MAX)
  else [tag.type % 256]

/-- Two tags agree: they have the same kind and, when the kind is `CUSTOM`, the
same name. -/
def same_tag (H : TagHeader) (a b : Tag) : Prop :=
  a.type = b.type ∧ (b.type = H.CUSTOM → a.custom_tag_name = b.custom_tag_name)

/-- A tag that a record can hold in full: its kind is the value of an
enumerator (below 128) and, for `CUSTOM`, its name has at most 255 bytes, none
of them NUL. -/
def fits_record (H : TagHeader) (tag : Tag) : Prop :=
  tag.type < 128 ∧
    (tag.type = H.CUSTOM →
      tag.custom_tag_name.length ≤ 255 ∧ ∀ b ∈ tag.custom_tag_name, b ≠ 0)

/-- The field `serialized_count` of a serialised state, `bytes[0..2)`. -/
def serialized_count (buffer : List Nat) : Nat := u16_read buffer 0

/-- The field `logical_count` of a serialised state, `bytes[2..4)`. -/
def logical_count (buffer : List Nat) : Nat := u16_read buffer 2

/-- The tag that `deserialize` writes into a slot from the record of `tag`, where
`default_name` is the name the slot had before: the name is assigned for
`CUSTOM` only. -/
def decoded (H : TagHeader) (default_name : List Nat) (tag : Tag) : Tag :=
  if tag.type = H.CUSTOM then tag
  else { type := tag.type, custom_tag_name := default_name }

/-- The tag name that `scan_tag_name` builds from the code points `n`: every
code point in upper case, as a `char`. -/
def upper_name (n : List Nat) : List Nat := n.map (fun c => to_char (towupper c))

/-- The lexer after `k` more code points were consumed, `rest` being left. -/
def consumed (lexer : TSLexer) (k : Nat) (rest : List Nat) : TSLexer :=
  { lexer with input := rest, pos := lexer.pos + k }

/-- In `text` there is a `>` at index `k + 2` immediately preceded by two `-`. -/
def comment_end_at (text : List Nat) (k : Nat) : Prop :=
  text.getD k 0 = 45 ∧ text.getD (k + 1) 0 = 45 ∧ text.getD (k + 2) 0 = 62

/-- The lexer after a comment that ends `m` code points further on: they are
consumed, the end of the token is marked there and the token is `COMMENT`. -/
def comment_token (lexer : TSLexer) (m : Nat) : TSLexer :=
  { input := lexer.input.drop m
    pos := lexer.pos + m
    token_start := lexer.token_start
    token_end := some (lexer.pos + m)
    result_symbol := some TokenType.COMMENT }

instance (text : List Nat) (k : Nat) : Decidable (comment_end_at text k) := by
  unfold comment_end_at; infer_instance

instance (H : TagHeader) (a b : Tag) : Decidable (same_tag H a b) := by
  unfold same_tag; infer_instance

instance (H : TagHeader) (tag : Tag) : Decidable (fits_record H tag) := by
  unfold fits_record; infer_instance

/-- A valid-symbol set in which only `SELF_CLOSING_TAG_DELIMITER` is acceptable. -/
def only_self_closing_tag_delimiter (symbol : TokenType) : Bool :=
  symbol == TokenType.SELF_CLOSING_TAG_DELIMITER

/-- The size of the record of a tag in the words of the spec: 1 byte for a tag
that is not `CUSTOM`, `2 + min (name length) 255` bytes for a `CUSTOM` tag. -/
def record_size (H : TagHeader) (tag : Tag) : Nat :=
  if tag.type = H.CUSTOM then 2 + min tag.custom_tag_name.length 255 else 1

/-- The bytes that the 4 header bytes and the records of the first `k` tags
occupy. -/
def occupied (H : TagHeader) (tags : List Tag) (k : Nat) : Nat :=
  4 + ((tags.take k).map (record_size H)).sum

/-- A stack of four `CUSTOM` tags with names of 255, 255, 255 and 247 bytes: the
header and the four records occupy exactly 1024 bytes. -/
def exact_fit : List Tag :=
  [CUSTOM (List.replicate 255 65), CUSTOM (List.replicate 255 66),
    CUSTOM (List.replicate 255 67), CUSTOM (List.replicate 247 68)]

/-- The text contains a complete occurrence of the delimiter, letters compared
in upper case. -/
def contains_delimiter (delimiter text : List Nat) : Prop :=
  ∃ pre post, text.map towupper = pre ++ delimiter ++ post

/-- The text ends in a non-empty proper part of the delimiter taken from its
start (such as `</scr` for `</SCRIPT`), letters compared in upper case. -/
def ends_in_partial_delimiter (delimiter text : List Nat) : Prop :=
  ∃ j pre, 0 < j ∧ j < delimiter.length ∧ text.map towupper = pre ++ delimiter.take j

/-- The end delimiter that `scan_raw_text` selects for the innermost tag. -/
def end_delimiter_of (H : TagHeader) (back : Tag) : List Nat :=
  if back.type = H.SCRIPT then SCRIPT_END else STYLE_END

/-- The delimiter-match index after `text`, in the words of the spec: every
character is case-folded and compared with the next expected character of the
delimiter; on a match the index advances, on a mismatch it is reset to zero. -/
def match_index (delimiter text : List Nat) : Nat :=
  text.foldl (fun j c => if towupper c = delimiter.getD j 0 then j + 1 else 0) 0

/-- The lexer after a raw-text token: `n` code points are consumed and the end of
the token is marked `j` code points before the last of them. -/
def raw_text_token (lexer : TSLexer) (n j : Nat) : TSLexer :=
  { input := lexer.input.drop n
    pos := lexer.pos + n
    token_start := lexer.token_start
    token_end := some (lexer.pos + n - j)
    result_symbol := some TokenType.RAW_TEXT }

/-- The text that follows a quoted literal whose opening quote `q` has just been
read, in the words of the spec: the literal runs to the matching quote, `\`
escapes the next character, and there is no such text when the literal is not
terminated. -/
def after_quoted (q : Nat) : List Nat → Option (List Nat)
  | [] => none
  | c :: cs =>
    if c = q then some cs
    else if c = 92 then
      match cs with
      | [] => none
      | _ :: cs2 => after_quoted q cs2
    else after_quoted q cs

/-- The number of code points before the first `}` that lies outside quoted
literals at brace depth 0, the depth at the start of the text being `depth`;
the first argument bounds the length of the text. -/
def expr_end_from : Nat → Nat → List Nat → Option Nat
  | 0, _, _ => none
  | _ + 1, _, [] => none
  | n + 1, depth, c :: cs =>
    if c = 123 then (expr_end_from n (depth + 1) cs).map (fun k => k + 1)
    else if c = 125 then
      if depth = 0 then some 0
      else (expr_end_from n (depth - 1) cs).map (fun k => k + 1)
    else if c = 34 ∨ c = 39 ∨ c = 96 then
      match after_quoted c cs with
      | none => none
      | some rest =>
        (expr_end_from n depth rest).map (fun k => k + (1 + (cs.length - rest.length)))
    else (expr_end_from n depth cs).map (fun k => k + 1)

/-- The number of code points before the first `}` of the text that lies outside
quoted literals at brace depth 0, if there is one. -/
def expr_end (text : List Nat) : Option Nat := expr_end_from text.length 0 text

/-- The lexer after an expression token that ends `k` code points further on:
the end of the token is marked there, before the `}`, which is not consumed. -/
def expr_token (lexer : TSLexer) (k : Nat) : TSLexer :=
  { input := lexer.input.drop k
    pos := lexer.pos + k
    token_start := lexer.token_start
    token_end := some (lexer.pos + k)
    result_symbol := some TokenType.RAW_TEXT_EXPR }

/-- The result of a plain-expression scan over the input of `lexer` whose first
unquoted `}` at depth 0 is `r`: the token that ends before it, or failure with
all of the input consumed. -/
def plain_outcome (lexer : TSLexer) (r : Option Nat) : Bool × TSLexer :=
  match r with
  | some k => (true, expr_token lexer k)
  | none => (false, consumed lexer lexer.input.length [])

/-- A tag whose record `deserialize` reads back as `serialize` wrote it: its kind
is the value of an enumerator (below 128, so that it survives the conversion to
`char` and back) and, for `CUSTOM`, its name is shorter than `2^32` bytes and has
no NUL byte (`strncpy` stops at a NUL). The name may be longer than 255 bytes. -/
def storable (H : TagHeader) (tag : Tag) : Prop :=
  tag.type < 128 ∧
    (tag.type = H.CUSTOM →
      tag.custom_tag_name.length < 4294967296 ∧ ∀ b ∈ tag.custom_tag_name, b ≠ 0)

/-- The tag with the name of a `CUSTOM` tag cut to its first 255 bytes. -/
def cut_name (H : TagHeader) (tag : Tag) : Tag :=
  if tag.type = H.CUSTOM then
    { type := tag.type, custom_tag_name := tag.custom_tag_name.take 255 }
  else tag

/-- The restored tag `a` agrees with the original `b` up to the cut of the name:
they have the same kind and, when the kind is `CUSTOM`, the name of `a` is the
first 255 bytes of the name of `b`. -/
def same_tag_cut (H : TagHeader) (a b : Tag) : Prop :=
  a.type = b.type ∧
    (b.type = H.CUSTOM → a.custom_tag_name = b.custom_tag_name.take 255)

instance (H : TagHeader) (tag : Tag) : Decidable (storable H tag) := by
  unfold storable; infer_instance

instance (H : TagHeader) (a b : Tag) : Decidable (same_tag_cut H a b) := by
  unfold same_tag_cut; infer_instance

/-- The text that the lexer delivers from `input`: the code points before the
first NUL. The lookahead is 0 at the end of the input and the scanner never
calls `eof`, so a NUL code point reads as the end of the input. -/
def delivered (input : List Nat) : List Nat := input.takeWhile (fun c => c != 0)

/-! ## Serialisation: lemmas -/

theorem strncpy_length (src : List Nat) (n : Nat) : (strncpy src n).length = n := by
  simp only [strncpy, List.length_append, List.length_take, List.length_replicate]
  omega

theorem strncpy_of_no_nul (src : List Nat) (h : ∀ b ∈ src, b ≠ 0) :
    strncpy src src.length = src := by
  have hw : src.takeWhile (fun b => b != 0) = src := by
    rw [List.takeWhile_eq_self_iff]
    intro x hx
    simpa using h x hx
  simp [strncpy, hw]

theorem record_length_pos (H : TagHeader) (tag : Tag) : 1 ≤ (record H tag).length := by
  unfold record
  split <;> simp

theorem record_length (H : TagHeader) (tag : Tag) :
    (record H tag).length =
      if tag.type = H.CUSTOM then
        2 + min (tag.custom_tag_name.length % 4294967296) UINT8_MAX
      else 1 := by
  unfold record
  split
  · simp only [List.length_append, copy_custom_tag, strncpy_length, List.length_cons,
      List.length_nil]
  · simp

/-- One iteration of the loop of `serialize`: the record of the tag is stored
when the index after it stays below the capacity, and the loop is left
otherwise. -/
theorem serialize_loop_cons (H : TagHeader) (C : Nat) (t : Tag) (rest : List Tag)
    (i : Nat) (w : List Nat) (k : Nat) :
    serialize_loop H C (t :: rest) i w k =
      if i + (record H t).length ≥ C then (i, w, k)
      else serialize_loop H C rest (i + (record H t).length) (w ++ record H t) (k + 1) := by
  have hmin : (if t.custom_tag_name.length % 4294967296 > UINT8_MAX then UINT8_MAX
      else t.custom_tag_name.length % 4294967296) =
      min (t.custom_tag_name.length % 4294967296) UINT8_MAX := by
    split <;> omega
  rw [record_length]
  by_cases hc : t.type = H.CUSTOM
  · rw [serialize_loop]
    simp only [hmin]
    rw [if_pos hc, if_pos hc]
    have hr : record H t = [t.type % 256,
        (min (t.custom_tag_name.length % 4294967296) UINT8_MAX) % 256]
        ++ copy_custom_tag t.custom_tag_name
            (min (t.custom_tag_name.length % 4294967296) UINT8_MAX) := by
      simp [record, hc]
    rw [hr, ← List.append_assoc, Nat.add_assoc]
  · rw [serialize_loop]
    rw [if_neg hc, if_neg hc]
    have hr : record H t = [t.type % 256] := by simp [record, hc]
    rw [hr]

/-- The loop of `serialize` stores the records of a prefix of the tags it is
given, counts them, moves the index by their length and, once it has stored a
record, leaves the index below the capacity. -/
theorem serialize_loop_spec (H : TagHeader) (C : Nat) :
    ∀ (ts : List Tag) (i : Nat) (w : List Nat) (k : Nat),
      ∃ m, m ≤ ts.length ∧
        serialize_loop H C ts i w k =
          (i + ((ts.take m).flatMap (record H)).length,
            w ++ (ts.take m).flatMap (record H), k + m) ∧
        (0 < m → i + ((ts.take m).flatMap (record H)).length < C) := by
  intro ts
  induction ts with
  | nil => intro i w k; exact ⟨0, by simp [serialize_loop]⟩
  | cons t rest ih =>
    intro i w k
    rw [serialize_loop_cons]
    by_cases hfull : i + (record H t).length ≥ C
    · exact ⟨0, by simp, by simp [hfull], by simp⟩
    · obtain ⟨m, hm, heq, hlt⟩ := ih (i + (record H t).length) (w ++ record H t) (k + 1)
      refine ⟨m + 1, by simpa using hm, ?_, ?_⟩
      · rw [if_neg hfull, heq]
        simp only [List.take_succ_cons, List.flatMap_cons, List.length_append,
          List.append_assoc]
        refine Prod.ext ?_ (Prod.ext rfl ?_)
        · simp only; omega
        · simp only; omega
      · intro _
        simp only [List.take_succ_cons, List.flatMap_cons, List.length_append]
        rcases Nat.eq_zero_or_pos m with h0 | hpos
        · subst h0
          simp only [List.take_zero, List.flatMap_nil, List.length_nil]
          omega
        · have := hlt hpos
          omega

theorem u16_read_bytes (a b : Nat) (rest : List Nat) (ha : a ≤ 65535) (hb : b ≤ 65535) :
    u16_read (u16_bytes a ++ u16_bytes b ++ rest) 0 = a ∧
      u16_read (u16_bytes a ++ u16_bytes b ++ rest) 2 = b := by
  simp only [u16_read, u16_bytes, List.cons_append, List.nil_append, List.getD_cons_zero,
    List.getD_cons_succ]
  constructor <;> omega

/-- The shape of the state that `serialize` produces: the two counts followed
by the records of the first `m` tags, `m` being the stored `serialized_count`. -/
theorem serialize_spec (H : TagHeader) (C : Nat) (tags : List Tag) :
    ∃ m, m ≤ min tags.length 65535 ∧
      (serialize H C tags).1 =
        u16_bytes m ++ u16_bytes (min tags.length 65535)
          ++ (tags.take m).flatMap (record H) ∧
      (serialize H C tags).2 = 4 + ((tags.take m).flatMap (record H)).length ∧
      (0 < m → (serialize H C tags).2 < C) := by
  have htc : (if tags.length > UINT16_MAX then UINT16_MAX else tags.length) =
      min tags.length 65535 := by
    simp only [UINT16_MAX]; split <;> omega
  obtain ⟨m, hm, heq, hlt⟩ :=
    serialize_loop_spec H C (tags.take (min tags.length 65535)) 4 [] 0
  have hm2 : m ≤ min tags.length 65535 := by
    simpa [List.length_take] using hm
  have htake : (tags.take (min tags.length 65535)).take m = tags.take m := by
    rw [List.take_take]
    congr 1
    omega
  rw [htake] at heq hlt
  refine ⟨m, hm2, ?_, ?_, ?_⟩
  · simp only [serialize, htc, heq]
    simp
  · simp only [serialize, htc, heq]
  · intro h
    simp only [serialize, htc, heq]
    exact hlt h

theorem record_of_fits (H : TagHeader) (t : Tag) (h : fits_record H t) :
    record H t =
      if t.type = H.CUSTOM then t.type :: t.custom_tag_name.length :: t.custom_tag_name
      else [t.type] := by
  obtain ⟨h128, hname⟩ := h
  have ht : t.type % 256 = t.type := Nat.mod_eq_of_lt (by omega)
  by_cases hc : t.type = H.CUSTOM
  · obtain ⟨hlen, hnul⟩ := hname hc
    have h1 : t.custom_tag_name.length % 4294967296 = t.custom_tag_name.length :=
      Nat.mod_eq_of_lt (by omega)
    have h2 : min t.custom_tag_name.length UINT8_MAX = t.custom_tag_name.length := by
      simp only [UINT8_MAX]; omega
    have h3 : t.custom_tag_name.length % 256 = t.custom_tag_name.length :=
      Nat.mod_eq_of_lt (by omega)
    simp only [record, if_pos hc, h1, h2, h3, copy_custom_tag,
      strncpy_of_no_nul _ hnul, ← hc, ht]
    rfl
  · simp only [record, if_neg hc, ht]

theorem getD_after (pre : List Nat) (x : Nat) (tl : List Nat) :
    (pre ++ x :: tl).getD pre.length 0 = x := by
  rw [List.getD_append_right _ _ _ _ (Nat.le_refl _)]
  simp

theorem getD_after_succ (pre : List Nat) (x y : Nat) (tl : List Nat) :
    (pre ++ x :: y :: tl).getD (pre.length + 1) 0 = y := by
  rw [List.getD_append_right _ _ _ _ (by omega)]
  simp

theorem set_take_drop (arr : List Tag) (j n : Nat) (x : Tag) (xs : List Tag)
    (hj : j < arr.length) :
    (arr.set j x).take (j + 1) ++ xs ++ (arr.set j x).drop (j + 1 + n) =
      arr.take j ++ x :: xs ++ arr.drop (j + (n + 1)) := by
  rw [List.set_eq_take_append_cons_drop, if_pos hj]
  have hlen : (arr.take j).length = j := by simp; omega
  have h1 : (arr.take j ++ x :: arr.drop (j + 1)).take (j + 1) = arr.take j ++ [x] := by
    rw [List.take_append_eq_append_take, hlen]
    simp [List.take_take]
  have h2 : (arr.take j ++ x :: arr.drop (j + 1)).drop (j + 1 + n) =
      arr.drop (j + (n + 1)) := by
    have : j + 1 + n = (arr.take j).length + (n + 1) := by omega
    rw [this, List.drop_append]
    simp only [List.drop_succ_cons, List.drop_drop]
    congr 1
    omega
  rw [h1, h2]
  simp

/-- The loop of `deserialize`, run over the records of the tags `ts` stored at
`buffer[i..)`, fills the slots `j ..` of the vector with the tags decoded from
the records and leaves the other slots as they are. -/
theorem deserialize_loop_records (H : TagHeader) (dn : List Nat) :
    ∀ (ts : List Tag) (pre post : List Nat) (j : Nat) (arr : List Tag),
      (∀ t ∈ ts, fits_record H t) → j + ts.length ≤ arr.length →
      (∀ x ∈ arr.drop j, x.custom_tag_name = dn) →
      deserialize_loop H (pre ++ ts.flatMap (record H) ++ post) ts.length j pre.length arr =
        arr.take j ++ ts.map (decoded H dn) ++ arr.drop (j + ts.length) := by
  intro ts
  induction ts with
  | nil =>
    intro pre post j arr _ _ _
    simp [deserialize_loop]
  | cons t rest ih =>
    intro pre post j arr hfit hlen hdn
    have hfit_t := hfit t (List.mem_cons_self _ _)
    have hfit_rest : ∀ x ∈ rest, fits_record H x :=
      fun x hx => hfit x (List.mem_cons_of_mem _ hx)
    have hj : j < arr.length := by simp only [List.length_cons] at hlen; omega
    have hlen2 : (j + 1) + rest.length ≤ arr.length := by
      simp only [List.length_cons] at hlen; omega
    have hB : pre ++ (t :: rest).flatMap (record H) ++ post =
        (pre ++ record H t) ++ rest.flatMap (record H) ++ post := by
      simp [List.flatMap_cons, List.append_assoc]
    have hrec := record_of_fits H t hfit_t
    have hdn2 : ∀ (x0 : Tag), ∀ x ∈ (arr.set j x0).drop (j + 1), x.custom_tag_name = dn := by
      intro x0 x hx
      rw [List.drop_set, if_pos (by omega)] at hx
      apply hdn x
      have hsub : arr.drop (j + 1) = (arr.drop j).drop 1 := by
        rw [List.drop_drop]
      rw [hsub] at hx
      exact List.mem_of_mem_drop hx
    rw [List.length_cons, deserialize_loop]
    by_cases hc : t.type = H.CUSTOM
    · rw [if_pos hc] at hrec
      have hread0 : (pre ++ (t :: rest).flatMap (record H) ++ post).getD pre.length 0
          = t.type := by
        rw [List.flatMap_cons, hrec]
        simp only [List.append_assoc, List.cons_append]
        exact getD_after _ _ _
      have hread1 : (pre ++ (t :: rest).flatMap (record H) ++ post).getD (pre.length + 1) 0
          = t.custom_tag_name.length := by
        rw [List.flatMap_cons, hrec]
        simp only [List.append_assoc, List.cons_append]
        exact getD_after_succ _ _ _ _
      have hname : ((pre ++ (t :: rest).flatMap (record H) ++ post).drop
          (pre.length + 2)).take t.custom_tag_name.length = t.custom_tag_name := by
        rw [List.flatMap_cons, hrec]
        simp only [List.append_assoc, List.cons_append]
        rw [List.drop_append]
        simp
      simp only [char_to_TagType, hread0, hread1, hname]
      rw [if_pos hc]
      have hi : pre.length + 2 + t.custom_tag_name.length = (pre ++ record H t).length := by
        rw [hrec]; simp; omega
      rw [hi, hB, ih (pre ++ record H t) post (j + 1) _ hfit_rest
        (by simpa using hlen2) (hdn2 _)]
      have hdec : decoded H dn t = t := by simp [decoded, hc]
      rw [List.map_cons, hdec]
      exact set_take_drop arr j rest.length _ _ hj
    · rw [if_neg hc] at hrec
      have hread0 : (pre ++ (t :: rest).flatMap (record H) ++ post).getD pre.length 0
          = t.type := by
        rw [List.flatMap_cons, hrec]
        simp only [List.append_assoc, List.cons_append]
        exact getD_after _ _ _
      simp only [char_to_TagType, hread0]
      rw [if_neg hc]
      have hi : pre.length + 1 = (pre ++ record H t).length := by
        rw [hrec]; simp
      have hslot : (arr.getD j H.default_tag).custom_tag_name = dn := by
        rw [List.getD_eq_getElem _ _ hj]
        apply hdn
        rw [List.mem_iff_getElem]
        exact ⟨0, by simp; omega, by simp⟩
      rw [hi, hB, hslot, ih (pre ++ record H t) post (j + 1) _ hfit_rest
        (by simpa using hlen2) (hdn2 _)]
      have hdec : decoded H dn t = { type := t.type, custom_tag_name := dn } := by
        simp [decoded, hc]
      rw [List.map_cons, hdec]
      exact set_take_drop arr j rest.length _ _ hj

theorem same_tag_decoded (H : TagHeader) (dn : List Nat) (t : Tag) :
    same_tag H (decoded H dn t) t := by
  unfold same_tag decoded
  split
  · exact ⟨rfl, fun _ => rfl⟩
  · rename_i hc
    exact ⟨rfl, fun h => absurd h hc⟩

theorem forall₂_same_tag_decoded (H : TagHeader) (dn : List Nat) (ts : List Tag) :
    List.Forall₂ (same_tag H) (ts.map (decoded H dn)) ts := by
  induction ts with
  | nil => exact List.Forall₂.nil
  | cons t rest ih => exact List.Forall₂.cons (same_tag_decoded H dn t) ih

/-! ## Serialisation: the round trip and the capacity -/

theorem strncpy_of_no_nul_cut (src : List Nat) (h : ∀ b ∈ src, b ≠ 0) :
    strncpy src (min src.length 255) = src.take 255 := by
  have hw : src.takeWhile (fun b => b != 0) = src := by
    rw [List.takeWhile_eq_self_iff]
    intro x hx
    simpa using h x hx
  have hsub : min src.length 255 - src.length = 0 := by omega
  rw [strncpy, hw, hsub, List.replicate_zero, List.append_nil]
  by_cases hlen : src.length ≤ 255
  · rw [Nat.min_eq_left hlen, List.take_length, List.take_of_length_le hlen]
  · rw [Nat.min_eq_right (by omega)]

theorem fits_record_cut_name (H : TagHeader) (t : Tag) (h : storable H t) :
    fits_record H (cut_name H t) := by
  obtain ⟨h128, hname⟩ := h
  unfold cut_name fits_record
  by_cases hc : t.type = H.CUSTOM
  · rw [if_pos hc]
    refine ⟨h128, fun _ => ⟨?_, ?_⟩⟩
    · simp only [List.length_take]; omega
    · intro b hb
      exact (hname hc).2 b (List.mem_of_mem_take hb)
  · rw [if_neg hc]
    exact ⟨h128, fun h => absurd h hc⟩

/-- The record of a tag holds the name cut to 255 bytes: it is the record of the
tag with the cut name. -/
theorem record_cut_name (H : TagHeader) (t : Tag) (h : storable H t) :
    record H t = record H (cut_name H t) := by
  by_cases hc : t.type = H.CUSTOM
  · obtain ⟨hlen, hnul⟩ := h.2 hc
    have hmod : t.custom_tag_name.length % 4294967296 = t.custom_tag_name.length :=
      Nat.mod_eq_of_lt hlen
    have hcut : cut_name H t =
        { type := t.type, custom_tag_name := t.custom_tag_name.take 255 } := by
      simp [cut_name, hc]
    have hnul2 : ∀ b ∈ t.custom_tag_name.take 255, b ≠ 0 :=
      fun b hb => hnul b (List.mem_of_mem_take hb)
    have hlen2 : (t.custom_tag_name.take 255).length = min t.custom_tag_name.length 255 := by
      rw [List.length_take]; omega
    have hmod2 : (t.custom_tag_name.take 255).length % 4294967296 =
        (t.custom_tag_name.take 255).length := Nat.mod_eq_of_lt (by omega)
    have hmin2 : min (t.custom_tag_name.take 255).length UINT8_MAX =
        (t.custom_tag_name.take 255).length := by
      simp only [UINT8_MAX]; omega
    have hA : (min t.custom_tag_name.length 255) % 4294967296 =
        min t.custom_tag_name.length 255 := Nat.mod_eq_of_lt (by omega)
    have hB : min (min t.custom_tag_name.length 255) 255 =
        min t.custom_tag_name.length 255 := by omega
    have hS := strncpy_of_no_nul _ hnul2
    rw [hlen2] at hS
    rw [hcut]
    simp only [record, if_pos hc, hmod, copy_custom_tag, UINT8_MAX,
      strncpy_of_no_nul_cut _ hnul, hlen2, hA, hB, hS]
  · simp [cut_name, hc]

theorem records_cut_name (H : TagHeader) (ts : List Tag) (h : ∀ t ∈ ts, storable H t) :
    ts.flatMap (record H) = (ts.map (cut_name H)).flatMap (record H) := by
  induction ts with
  | nil => rfl
  | cons t rest ih =>
    rw [List.map_cons, List.flatMap_cons, List.flatMap_cons,
      record_cut_name H t (h t (List.mem_cons_self _ _)),
      ih (fun x hx => h x (List.mem_cons_of_mem _ hx))]

theorem deserialize_loop_length (H : TagHeader) (buffer : List Nat) :
    ∀ (n j i : Nat) (arr : List Tag),
      (deserialize_loop H buffer n j i arr).length = arr.length := by
  intro n
  induction n with
  | zero => intro j i arr; rfl
  | succ n ih =>
    intro j i arr
    rw [deserialize_loop]
    simp only []
    split <;> rw [ih, List.length_set]

theorem deserialize_loop_drop (H : TagHeader) (buffer : List Nat) :
    ∀ (n j i : Nat) (arr : List Tag),
      (deserialize_loop H buffer n j i arr).drop (j + n) = arr.drop (j + n) := by
  intro n
  induction n with
  | zero => intro j i arr; rfl
  | succ n ih =>
    intro j i arr
    have hj : j + (n + 1) = (j + 1) + n := by omega
    rw [deserialize_loop, hj]
    simp only []
    split <;> rw [ih, List.drop_set, if_pos (by omega)]

/-- What `deserialize` rebuilds from the state that `serialize` produced, without
any assumption on the tags: a stack of `logical_count` entries whose entries
from `serialized_count` on are default-constructed tags. -/
theorem deserialize_serialize_shape (H : TagHeader) (C : Nat) (tags : List Tag) :
    logical_count (serialize H C tags).1 = min tags.length 65535 ∧
      serialized_count (serialize H C tags).1 ≤ logical_count (serialize H C tags).1 ∧
      (deserialize H (serialize H C tags).1 (serialize H C tags).2).length =
        logical_count (serialize H C tags).1 ∧
      ∀ x ∈ (deserialize H (serialize H C tags).1 (serialize H C tags).2).drop
          (serialized_count (serialize H C tags).1), x = H.default_tag := by
  obtain ⟨m, hm, hbuf, hn, _⟩ := serialize_spec H C tags
  have hreads := u16_read_bytes m (min tags.length 65535)
    ((tags.take m).flatMap (record H)) (by omega) (by omega)
  have hs : serialized_count (serialize H C tags).1 = m := by
    rw [serialized_count, hbuf]; exact hreads.1
  have hl : logical_count (serialize H C tags).1 = min tags.length 65535 := by
    rw [logical_count, hbuf]; exact hreads.2
  have hpos : (serialize H C tags).2 > 0 := by omega
  have hd : deserialize H (serialize H C tags).1 (serialize H C tags).2 =
      deserialize_loop H (serialize H C tags).1 m 0 4
        (List.replicate (min tags.length 65535) H.default_tag) := by
    rw [deserialize, if_pos hpos]
    simp only []
    rw [← serialized_count, ← logical_count, hs, hl]
  refine ⟨hl, by rw [hs, hl]; exact hm, ?_, ?_⟩
  · rw [hd, deserialize_loop_length, List.length_replicate, hl]
  · intro x hx
    rw [hd, hs] at hx
    have hdrop := deserialize_loop_drop H (serialize H C tags).1 m 0 4
      (List.replicate (min tags.length 65535) H.default_tag)
    rw [Nat.zero_add] at hdrop
    rw [hdrop] at hx
    exact List.eq_of_mem_replicate (List.mem_of_mem_drop hx)

/-- The entries that `deserialize` rebuilds from the stored records, when the tags
whose records were stored are storable: the tags with their names cut to 255
bytes, as decoded from the records. -/
theorem deserialize_serialize_stored (H : TagHeader) (C : Nat) (tags : List Tag)
    (hst : ∀ t ∈ tags.take (serialized_count (serialize H C tags).1), storable H t) :
    (0 < serialized_count (serialize H C tags).1 →
        serialized_count (serialize H C tags).1 + 4 < C) ∧
      (deserialize H (serialize H C tags).1 (serialize H C tags).2).take
          (serialized_count (serialize H C tags).1) =
        ((tags.take (serialized_count (serialize H C tags).1)).map (cut_name H)).map
          (decoded H H.default_tag.custom_tag_name) := by
  obtain ⟨m, hm, hbuf, hn, hlt⟩ := serialize_spec H C tags
  have hreads := u16_read_bytes m (min tags.length 65535)
    ((tags.take m).flatMap (record H)) (by omega) (by omega)
  have hs : serialized_count (serialize H C tags).1 = m := by
    rw [serialized_count, hbuf]; exact hreads.1
  rw [hs] at hst ⊢
  have hmlen : (tags.take m).length = m := by
    rw [List.length_take]; omega
  have hrecs : m ≤ ((tags.take m).flatMap (record H)).length := by
    have key : ∀ ts : List Tag, ts.length ≤ (ts.flatMap (record H)).length := by
      intro ts
      induction ts with
      | nil => simp
      | cons t rest ih =>
        have := record_length_pos H t
        simp only [List.flatMap_cons, List.length_append, List.length_cons]
        omega
    have := key (tags.take m)
    omega
  constructor
  · intro h
    have := hlt h
    omega
  · have hpos : (serialize H C tags).2 > 0 := by omega
    rw [deserialize, if_pos hpos]
    simp only []
    rw [hbuf, hreads.1, hreads.2, records_cut_name H _ hst]
    have hfit2 : ∀ t ∈ (tags.take m).map (cut_name H), fits_record H t := by
      intro t ht
      obtain ⟨t0, ht0, rfl⟩ := List.mem_map.mp ht
      exact fits_record_cut_name H t0 (hst t0 ht0)
    have hloop := deserialize_loop_records H H.default_tag.custom_tag_name
      ((tags.take m).map (cut_name H))
      (u16_bytes m ++ u16_bytes (min tags.length 65535)) [] 0
      (List.replicate (min tags.length 65535) H.default_tag) hfit2
      (by rw [List.length_map, hmlen, List.length_replicate]; omega)
      (by
        intro x hx
        have hx2 := List.mem_of_mem_drop hx
        rw [List.eq_of_mem_replicate hx2])
    rw [List.length_map, hmlen] at hloop
    have hpre : (u16_bytes m ++ u16_bytes (min tags.length 65535)).length = 4 := by
      simp [u16_bytes]
    rw [hpre, List.append_nil] at hloop
    rw [hloop, List.take_zero, List.nil_append,
      List.take_append_of_le_length (by rw [List.length_map, List.length_map, hmlen]),
      List.take_of_length_le (by rw [List.length_map, List.length_map, hmlen])]

theorem forall₂_same_tag_cut (H : TagHeader) (dn : List Nat) (ts : List Tag) :
    List.Forall₂ (same_tag_cut H) ((ts.map (cut_name H)).map (decoded H dn)) ts := by
  induction ts with
  | nil => exact List.Forall₂.nil
  | cons t rest ih =>
    refine List.Forall₂.cons ?_ ih
    unfold same_tag_cut decoded cut_name
    by_cases hc : t.type = H.CUSTOM
    · simp [hc]
    · simp [hc]

theorem forall₂_same_tag_short (H : TagHeader) (dn : List Nat) (ts : List Tag)
    (hshort : ∀ t ∈ ts, t.type = H.CUSTOM → t.custom_tag_name.length ≤ 255) :
    List.Forall₂ (same_tag H) ((ts.map (cut_name H)).map (decoded H dn)) ts := by
  induction ts with
  | nil => exact List.Forall₂.nil
  | cons t rest ih =>
    refine List.Forall₂.cons ?_ (ih (fun x hx => hshort x (List.mem_cons_of_mem _ hx)))
    have hs := hshort t (List.mem_cons_self _ _)
    unfold same_tag decoded cut_name
    by_cases hc : t.type = H.CUSTOM
    · simp [hc, List.take_of_length_le (hs hc)]
    · simp [hc]

/-- C1 (as amended). Round trip without truncation: for a buffer capacity of at
most 65536 bytes and every tag stack of storable tags (kinds that are enumerator
values, `CUSTOM` names of any length below `2^32` without a NUL byte), when
`serialize` stores `serialized_count` equal to `logical_count`, `deserialize`
applied to the buffer and length that `serialize` produced yields a stack that
agrees with the original element by element in the kind and, for `CUSTOM`, in
the name cut to its first 255 bytes; when every `CUSTOM` name has at most 255
bytes it agrees in the kind and, for `CUSTOM`, in the name. -/
theorem round_trip_without_truncation (H : TagHeader) (C : Nat) (tags : List Tag)
    (hC : C ≤ 65536) (hst : ∀ t ∈ tags, storable H t)
    (hcount : serialized_count (serialize H C tags).1 =
      logical_count (serialize H C tags).1) :
    List.Forall₂ (same_tag_cut H)
        (deserialize H (serialize H C tags).1 (serialize H C tags).2) tags ∧
      ((∀ t ∈ tags, t.type = H.CUSTOM → t.custom_tag_name.length ≤ 255) →
        List.Forall₂ (same_tag H)
          (deserialize H (serialize H C tags).1 (serialize H C tags).2) tags) := by
  obtain ⟨hl, _, hlen, _⟩ := deserialize_serialize_shape H C tags
  obtain ⟨hlt, hd⟩ := deserialize_serialize_stored H C tags
    (fun t ht => hst t (List.mem_of_mem_take ht))
  have hk : serialized_count (serialize H C tags).1 = tags.length := by
    rw [hl] at hcount
    rcases Nat.eq_zero_or_pos (serialized_count (serialize H C tags).1) with h0 | hpos
    · omega
    · have := hlt hpos
      omega
  rw [hk] at hd
  rw [← hcount, hk] at hlen
  rw [List.take_of_length_le (by omega), List.take_length] at hd
  rw [hd]
  exact ⟨forall₂_same_tag_cut H _ tags, forall₂_same_tag_short H _ tags⟩

/-- Witness of `round_trip_without_truncation`: the stack `[DIV, MY-TAG, BR]` with
capacity 1024. -/
theorem round_trip_without_truncation_witness :
    List.Forall₂ (same_tag sample_header)
      (deserialize sample_header
        (serialize sample_header 1024 [DIV, CUSTOM [77, 89, 45, 84, 65, 71], BR]).1
        (serialize sample_header 1024 [DIV, CUSTOM [77, 89, 45, 84, 65, 71], BR]).2)
      [DIV, CUSTOM [77, 89, 45, 84, 65, 71], BR] :=
  (round_trip_without_truncation sample_header 1024
    [DIV, CUSTOM [77, 89, 45, 84, 65, 71], BR] (by decide) (by decide) (by decide)).2
    (by decide)

set_option maxRecDepth 100000 in
/-- C1 (as stated) fails: for the stack of one `CUSTOM` tag whose name is 256
times `A`, with capacity 1024, `serialized_count` equals `logical_count` (both
are 1) and `deserialize` yields the tag with the name cut to 255 bytes, which
does not agree with the original. -/
theorem round_trip_long_name_counterexample :
    serialized_count (serialize sample_header 1024 [CUSTOM (List.replicate 256 65)]).1 =
      logical_count (serialize sample_header 1024 [CUSTOM (List.replicate 256 65)]).1 ∧
    deserialize sample_header
        (serialize sample_header 1024 [CUSTOM (List.replicate 256 65)]).1
        (serialize sample_header 1024 [CUSTOM (List.replicate 256 65)]).2 =
      [CUSTOM (List.replicate 255 65)] ∧
    ¬ List.Forall₂ (same_tag sample_header)
      (deserialize sample_header
        (serialize sample_header 1024 [CUSTOM (List.replicate 256 65)]).1
        (serialize sample_header 1024 [CUSTOM (List.replicate 256 65)]).2)
      [CUSTOM (List.replicate 256 65)] := by
  have hd : deserialize sample_header
        (serialize sample_header 1024 [CUSTOM (List.replicate 256 65)]).1
        (serialize sample_header 1024 [CUSTOM (List.replicate 256 65)]).2 =
      [CUSTOM (List.replicate 255 65)] := by decide
  refine ⟨by decide, hd, ?_⟩
  rw [hd]
  intro h
  cases h with
  | cons hab _ =>
    have hname := hab.2 rfl
    have hlen := congrArg List.length hname
    simp [CUSTOM] at hlen

/-- C2 (as amended). Round trip with truncation: for every tag stack, when
`serialize` stops early (`serialized_count < logical_count`), `deserialize` of
the produced buffer yields a stack of length `logical_count`, which is
`min (stack size) 65535`, whose entries from `serialized_count` on are all the
default-constructed tag; and when the first `serialized_count` tags of the
original stack are storable (kinds that are enumerator values, `CUSTOM` names of
any length below `2^32` without a NUL byte), the first `serialized_count` entries
agree with them in the kind and, for `CUSTOM`, in the name cut to its first 255
bytes, hence in the name when those names have at most 255 bytes. Nothing is
assumed of the tags whose records were not stored. -/
theorem round_trip_with_truncation (H : TagHeader) (C : Nat) (tags : List Tag)
    (_ : serialized_count (serialize H C tags).1 <
      logical_count (serialize H C tags).1) :
    (deserialize H (serialize H C tags).1 (serialize H C tags).2).length =
        logical_count (serialize H C tags).1 ∧
      logical_count (serialize H C tags).1 = min tags.length 65535 ∧
      (∀ x ∈ (deserialize H (serialize H C tags).1 (serialize H C tags).2).drop
          (serialized_count (serialize H C tags).1), x = H.default_tag) ∧
      ((∀ t ∈ tags.take (serialized_count (serialize H C tags).1), storable H t) →
        List.Forall₂ (same_tag_cut H)
            ((deserialize H (serialize H C tags).1 (serialize H C tags).2).take
              (serialized_count (serialize H C tags).1))
            (tags.take (serialized_count (serialize H C tags).1)) ∧
          ((∀ t ∈ tags.take (serialized_count (serialize H C tags).1),
              t.type = H.CUSTOM → t.custom_tag_name.length ≤ 255) →
            List.Forall₂ (same_tag H)
              ((deserialize H (serialize H C tags).1 (serialize H C tags).2).take
                (serialized_count (serialize H C tags).1))
              (tags.take (serialized_count (serialize H C tags).1)))) := by
  obtain ⟨hl, _, hlen, hdef⟩ := deserialize_serialize_shape H C tags
  refine ⟨hlen, hl, hdef, ?_⟩
  intro hst
  rw [(deserialize_serialize_stored H C tags hst).2]
  exact ⟨forall₂_same_tag_cut H _ _, forall₂_same_tag_short H _ _⟩

set_option maxRecDepth 100000 in
/-- Witness of `round_trip_with_truncation`: four `CUSTOM` tags with names of 255
bytes and capacity 1024, where three records are stored. -/
theorem round_trip_with_truncation_witness :
    (deserialize sample_header (serialize sample_header 1024 four_long_names).1
        (serialize sample_header 1024 four_long_names).2).length =
        logical_count (serialize sample_header 1024 four_long_names).1 ∧
      logical_count (serialize sample_header 1024 four_long_names).1 =
        min four_long_names.length 65535 ∧
      (∀ x ∈ (deserialize sample_header (serialize sample_header 1024 four_long_names).1
          (serialize sample_header 1024 four_long_names).2).drop
          (serialized_count (serialize sample_header 1024 four_long_names).1),
        x = sample_header.default_tag) ∧
      List.Forall₂ (same_tag sample_header)
        ((deserialize sample_header (serialize sample_header 1024 four_long_names).1
          (serialize sample_header 1024 four_long_names).2).take
          (serialized_count (serialize sample_header 1024 four_long_names).1))
        (four_long_names.take
          (serialized_count (serialize sample_header 1024 four_long_names).1)) :=
  ⟨(round_trip_with_truncation sample_header 1024 four_long_names (by decide)).1,
    (round_trip_with_truncation sample_header 1024 four_long_names (by decide)).2.1,
    (round_trip_with_truncation sample_header 1024 four_long_names (by decide)).2.2.1,
    ((round_trip_with_truncation sample_header 1024 four_long_names (by decide)).2.2.2
      (by decide)).2 (by decide)⟩

set_option maxRecDepth 100000 in
/-- C2 (as stated) fails: for four `CUSTOM` tags, the first with a name of 256
bytes, and capacity 1024, `serialize` stops early (3 of 4 records) and the first
entry that `deserialize` yields carries the name cut to 255 bytes, so the first
`serialized_count` entries do not agree with those of the original stack. -/
theorem round_trip_truncated_long_name_counterexample :
    serialized_count (serialize sample_header 1024 four_longer_names).1 = 3 ∧
    logical_count (serialize sample_header 1024 four_longer_names).1 = 4 ∧
    ¬ List.Forall₂ (same_tag sample_header)
      ((deserialize sample_header (serialize sample_header 1024 four_longer_names).1
        (serialize sample_header 1024 four_longer_names).2).take 3)
      (four_longer_names.take 3) := by
  have hd : (deserialize sample_header (serialize sample_header 1024 four_longer_names).1
        (serialize sample_header 1024 four_longer_names).2).take 3 =
      [CUSTOM (List.replicate 255 65), CUSTOM (List.replicate 255 66),
        CUSTOM (List.replicate 255 67)] := by decide
  refine ⟨by decide, by decide, ?_⟩
  rw [hd]
  intro h
  simp only [four_longer_names, List.take_succ_cons] at h
  cases h with
  | cons hab _ =>
    have hname := hab.2 rfl
    have hlen := congrArg List.length hname
    simp [CUSTOM] at hlen

/-- C3. Serialisation stays within capacity: for a buffer capacity `C` that
holds the four bytes of the two counts and every tag stack, `serialize`
returns a length `n` with `4 ≤ n ≤ C`, the bytes it has stored are exactly
`buffer[0..n)` (none at an index `≥ C`), `bytes[2..4)` hold `logical_count =
min (stack size) 65535` and `bytes[0..2)` hold a `serialized_count` that is at
most `logical_count`. -/
theorem serialize_within_capacity (H : TagHeader) (C : Nat) (hC : 4 ≤ C)
    (tags : List Tag) :
    4 ≤ (serialize H C tags).2 ∧ (serialize H C tags).2 ≤ C ∧
      (serialize H C tags).1.length = (serialize H C tags).2 ∧
      logical_count (serialize H C tags).1 = min tags.length 65535 ∧
      serialized_count (serialize H C tags).1 ≤ logical_count (serialize H C tags).1 := by
  obtain ⟨m, hm, hbuf, hn, hlt⟩ := serialize_spec H C tags
  have hreads := u16_read_bytes m (min tags.length 65535)
    ((tags.take m).flatMap (record H)) (by omega) (by omega)
  refine ⟨by omega, ?_, ?_, ?_, ?_⟩
  · rcases Nat.eq_zero_or_pos m with h0 | hpos
    · subst h0
      simp only [List.take_zero, List.flatMap_nil, List.length_nil] at hn
      omega
    · exact Nat.le_of_lt (hlt hpos)
  · rw [hbuf, hn]
    simp only [u16_bytes, List.length_append, List.length_cons, List.length_nil]
  · rw [logical_count, hbuf]; exact hreads.2
  · rw [logical_count, serialized_count, hbuf, hreads.1, hreads.2]; exact hm

set_option maxRecDepth 100000 in
/-- Witness of `serialize_within_capacity`: capacity 1024 and four `CUSTOM` tags
with names of 256 and 255 bytes. -/
theorem serialize_within_capacity_witness :
    4 ≤ (1024 : Nat) ∧
    4 ≤ (serialize sample_header 1024 four_longer_names).2 ∧
      (serialize sample_header 1024 four_longer_names).2 ≤ 1024 ∧
      (serialize sample_header 1024 four_longer_names).1.length =
        (serialize sample_header 1024 four_longer_names).2 ∧
      logical_count (serialize sample_header 1024 four_longer_names).1 =
        min four_longer_names.length 65535 ∧
      serialized_count (serialize sample_header 1024 four_longer_names).1 ≤
        logical_count (serialize sample_header 1024 four_longer_names).1 :=
  ⟨by decide, serialize_within_capacity sample_header 1024 (by decide) four_longer_names⟩

/-! ## Tag names -/

theorem consumed_zero (lexer : TSLexer) : consumed lexer 0 lexer.input = lexer := rfl

theorem advance_cons (lexer : TSLexer) (c : Nat) (cs : List Nat)
    (h : lexer.input = c :: cs) : lexer.advance false = consumed lexer 1 cs := by
  unfold TSLexer.advance consumed
  rw [h]
  simp

theorem lookahead_cons (lexer : TSLexer) (c : Nat) (cs : List Nat)
    (h : lexer.input = c :: cs) : lexer.lookahead = c := by
  simp [TSLexer.lookahead, h]

theorem consumed_consumed (lexer : TSLexer) (a b : Nat) (r1 r2 : List Nat) :
    consumed (consumed lexer a r1) b r2 = consumed lexer (a + b) r2 := by
  simp [consumed, Nat.add_assoc]

/-- The loop of `scan_tag_name` consumes a run of tag-name characters that is
followed by another character or by the end of the stream, and appends the run
in upper case. -/
theorem scan_tag_name_loop_run :
    ∀ (n rest : List Nat) (fuel : Nat) (lexer : TSLexer) (acc : List Nat),
      lexer.input = n ++ rest → lexer.input.length ≤ fuel →
      (∀ c ∈ n, is_tag_name_char c = true) → is_tag_name_char (rest.headD 0) = false →
      scan_tag_name_loop fuel lexer acc = (acc ++ upper_name n, consumed lexer n.length rest) := by
  intro n
  induction n with
  | nil =>
    intro rest fuel lexer acc hin _ _ hrest
    have hin2 : lexer.input = rest := by simpa using hin
    have hc : consumed lexer 0 rest = lexer := by rw [← hin2]; rfl
    cases fuel with
    | zero => simp [scan_tag_name_loop, upper_name, hc]
    | succ f =>
      have hla : lexer.lookahead = rest.headD 0 := by simp [TSLexer.lookahead, hin2]
      have hno : (iswalnum lexer.lookahead || lexer.lookahead == 45 ||
          lexer.lookahead == 58) = false := by rw [hla]; exact hrest
      simp [scan_tag_name_loop, hno, upper_name, hc]
  | cons c n ih =>
    intro rest fuel lexer acc hin hfuel hchars hrest
    have hin2 : lexer.input = c :: (n ++ rest) := by simpa using hin
    cases fuel with
    | zero => rw [hin2] at hfuel; simp at hfuel
    | succ f =>
      have hla := lookahead_cons lexer c _ hin2
      have hyes : (iswalnum lexer.lookahead || lexer.lookahead == 45 ||
          lexer.lookahead == 58) = true := by
        rw [hla]; exact hchars c (List.mem_cons_self _ _)
      rw [scan_tag_name_loop, if_pos hyes, advance_cons lexer c _ hin2, hla]
      rw [ih rest f (consumed lexer 1 (n ++ rest)) _ rfl
        (by rw [hin2] at hfuel; simp [consumed] at hfuel ⊢; omega)
        (fun x hx => hchars x (List.mem_cons_of_mem _ hx)) hrest]
      rw [consumed_consumed]
      simp [upper_name, Nat.add_comm]

/-- Method `scan_tag_name` on an input that begins with the run `n` of tag-name
characters: the name is `n` in upper case and the cursor is after the run. -/
theorem scan_tag_name_run (n rest : List Nat) (lexer : TSLexer)
    (hin : lexer.input = n ++ rest) (hchars : ∀ c ∈ n, is_tag_name_char c = true)
    (hrest : is_tag_name_char (rest.headD 0) = false) :
    scan_tag_name lexer = (upper_name n, consumed lexer n.length rest) := by
  rw [scan_tag_name, scan_tag_name_loop_run n rest _ lexer [] hin (Nat.le_refl _) hchars hrest]
  simp

/-! ## Implicit end tags -/

theorem any_eq_dropLast_or_last (tags : List Tag) (top : Tag) (f : Tag → Bool)
    (h : tags.getLast? = some top) : tags.any f = (tags.dropLast.any f || f top) := by
  have hsplit : tags = tags.dropLast ++ [top] :=
    (List.dropLast_append_getLast? top h).symm
  conv_lhs => rw [hsplit]
  simp [List.any_append]

theorem pop_back_of_getLast? (tags : List Tag) (top : Tag) (h : tags.getLast? = some top) :
    pop_back tags = Except.ok tags.dropLast := by
  cases tags with
  | nil => simp at h
  | cons t ts => simp [pop_back]

theorem parent_of_nonempty (tags : List Tag) (hne : tags ≠ []) :
    (if (tags.isEmpty == false) then Except.ok TagPtr.null else address_of_back tags) =
      Except.ok TagPtr.null := by
  cases tags with
  | nil => exact absurd rfl hne
  | cons t ts => rfl

/-- On an empty tag stack `scan_implicit_end_tag` evaluates `tags.back()` of the
empty vector in its first statement, whatever the input is. -/
theorem scan_implicit_end_tag_of_empty (H : TagHeader) (self : Scanner2) (lexer : TSLexer)
    (hnil : self.tags = []) :
    scan_implicit_end_tag H self lexer = Except.error Fault.read_back_of_empty_tags := by
  unfold scan_implicit_end_tag
  rw [hnil]
  rfl

/-- C4, evaluated at a failing input. With an empty tag stack and the input
`/div>` after the `<` (a `/` and a non-empty tag name), `scan_implicit_end_tag`
does not reach the scan of the name: its first statement takes `&tags.back()` of
the empty vector. -/
theorem implicit_close_on_empty_stack_reads_back :
    scan_implicit_end_tag sample_header { tags := [] } (lexer_on [47, 100, 105, 118, 62]) =
      Except.error Fault.read_back_of_empty_tags := by
  decide

/-- Implicit close toward an ancestor, on a stack that is not empty: for every
input that continues with `/` and a non-empty tag name `n`,
`scan_implicit_end_tag` emits `IMPLICIT_END_TAG` and removes exactly the top tag
(the tags below it unchanged) when `for_name` of the name differs from the top
tag and equals some tag deeper in the stack; in every other case (the name
equals the top tag or matches no tag of the stack) it returns `false`, assigns
no token and leaves the stack unchanged. -/
theorem implicit_close_toward_ancestor (H : TagHeader) (self : Scanner2) (lexer : TSLexer)
    (n rest : List Nat) (hstack : self.tags ≠ [])
    (hin : lexer.input = 47 :: (n ++ rest)) (hn : n ≠ [])
    (hchars : ∀ c ∈ n, is_tag_name_char c = true)
    (hrest : is_tag_name_char (rest.headD 0) = false) :
    scan_implicit_end_tag H self lexer =
      if self.tags.getLast?.all (fun top => !H.eq top (H.for_name (upper_name n))) &&
          self.tags.dropLast.any (fun tag => H.eq tag (H.for_name (upper_name n))) then
        Except.ok (true, { tags := self.tags.dropLast },
          (consumed lexer (1 + n.length) rest).set_result_symbol TokenType.IMPLICIT_END_TAG)
      else Except.ok (false, self, consumed lexer (1 + n.length) rest) := by
  have hla := lookahead_cons lexer 47 _ hin
  have hadv := advance_cons lexer 47 _ hin
  have hname := scan_tag_name_run n rest (consumed lexer 1 (n ++ rest)) rfl hchars hrest
  rw [consumed_consumed] at hname
  have hlen : (upper_name n).length ≠ 0 := by
    cases n with
    | nil => exact absurd rfl hn
    | cons c cs => simp [upper_name]
  unfold scan_implicit_end_tag
  rw [parent_of_nonempty self.tags hstack]
  simp only [hla, if_true, hadv, hname, if_neg hlen]
  cases hlast : self.tags.getLast? with
  | none =>
    exact absurd (List.getLast?_eq_none_iff.mp hlast) hstack
  | some top =>
    have hlen2 : self.tags.length ≠ 0 := by
      intro h; exact hstack (List.length_eq_zero.mp h)
    rw [any_eq_dropLast_or_last self.tags top _ hlast, pop_back_of_getLast? _ top hlast]
    cases htop : H.eq top (H.for_name (upper_name n)) <;>
      cases hdeep : self.tags.dropLast.any (fun tag => H.eq tag (H.for_name (upper_name n))) <;>
      simp [hlen2, htop, hdeep]

/-- Witness of `implicit_close_toward_ancestor` (the example of the spec): the
stack `[DIV, SPAN]` and the input `/div>` after the `<` give `IMPLICIT_END_TAG`
and the stack `[DIV]`. -/
theorem implicit_close_toward_ancestor_witness :
    scan_implicit_end_tag sample_header { tags := [DIV, SPAN] }
        (lexer_on [47, 100, 105, 118, 62]) =
      Except.ok (true, { tags := [DIV] },
        { input := [62], pos := 4, token_start := 0, token_end := none,
          result_symbol := some TokenType.IMPLICIT_END_TAG }) :=
  (implicit_close_toward_ancestor sample_header { tags := [DIV, SPAN] }
    (lexer_on [47, 100, 105, 118, 62]) [100, 105, 118] [62] (by decide) rfl (by decide)
    (by decide) (by decide)).trans (by decide)

/-- With a stack that is not empty the pointer `parent` is `NULL`: on an input
that does not continue with `/`, `scan_implicit_end_tag` pops nothing and
returns `false`, whatever the top tag is. -/
theorem scan_implicit_end_tag_opening_form (H : TagHeader) (self : Scanner2)
    (lexer : TSLexer) (hne : self.tags ≠ []) (hla : lexer.lookahead ≠ 47) :
    ∃ lexer1, scan_implicit_end_tag H self lexer = Except.ok (false, self, lexer1) := by
  have hemp : self.tags.isEmpty = false := by
    cases h : self.tags with
    | nil => exact absurd h hne
    | cons t ts => rfl
  unfold scan_implicit_end_tag
  simp only [hemp, if_neg hla]
  simp only [beq_self_eq_true, if_true]
  split <;> exact ⟨_, rfl⟩

/-- C5, evaluated at a failing input. The top tag `BR` is of a void kind and the
input after the `<` is `br>` (the second tag of `<br><br>`), which does not
begin with `/`: `scan_implicit_end_tag` returns `false`, assigns no token and
leaves `BR` on the stack. -/
theorem void_top_is_not_closed :
    sample_header.is_void BR = true ∧
      scan_implicit_end_tag sample_header { tags := [BR] } (lexer_on [98, 114, 62]) =
        Except.ok (false, { tags := [BR] },
          { input := [62], pos := 2, token_start := 0, token_end := none,
            result_symbol := none }) := by
  decide

/-- C6 (as stated) fails: with the stack `[DIV]`, the lookahead at the end of the
stream and only `IMPLICIT_END_TAG` acceptable, `scan` returns `false`, assigns
no token and leaves the stack `[DIV]`. -/
theorem end_of_input_counterexample :
    scan sample_header { tags := [DIV] } (lexer_on []) only_implicit_end_tag =
      Except.ok (false, { tags := [DIV] }, lexer_on []) := by
  decide

theorem skip_whitespace_of_not_space (fuel : Nat) (lexer : TSLexer)
    (h : iswspace lexer.lookahead = false) : skip_whitespace fuel lexer = lexer := by
  cases fuel with
  | zero => rfl
  | succ f => simp [skip_whitespace, h]

theorem scan_tag_name_of_not_tag_char (lexer : TSLexer)
    (h : is_tag_name_char lexer.lookahead = false) : scan_tag_name lexer = ([], lexer) := by
  have := scan_tag_name_run [] lexer.input lexer rfl (by simp) h
  simpa [upper_name, consumed_zero] using this

/-- C6 (as amended). No implicit close at the end of the input: for every
non-empty tag stack whose top tag is not of a void kind, when the lookahead is
the end of the stream, `IMPLICIT_END_TAG` is acceptable and no expression or
raw-text branch of the dispatcher applies, `scan` returns `false`, assigns no
token and leaves the stack and the lexer unchanged. -/
theorem no_implicit_close_at_end_of_input (H : TagHeader) (self : Scanner2)
    (lexer : TSLexer) (valid_symbols : TokenType → Bool) (top : Tag)
    (htop : self.tags.getLast? = some top) (_ : H.is_void top = false)
    (heof : lexer.lookahead = 0)
    (himplicit : valid_symbols TokenType.IMPLICIT_END_TAG = true)
    (hexpr : valid_symbols TokenType.RAW_TEXT_EXPR = false)
    (hraw : (valid_symbols TokenType.RAW_TEXT && !valid_symbols TokenType.START_TAG_NAME &&
      !valid_symbols TokenType.END_TAG_NAME) = false) :
    scan H self lexer valid_symbols = Except.ok (false, self, lexer) := by
  have hne : self.tags ≠ [] := by
    intro h; rw [h] at htop; simp at htop
  have hemp : self.tags.isEmpty = false := by
    cases h : self.tags with
    | nil => exact absurd h hne
    | cons t ts => rfl
  have hskip := skip_whitespace_of_not_space lexer.input.length lexer
    (by rw [heof]; decide)
  have hname := scan_tag_name_of_not_tag_char lexer (by rw [heof]; decide)
  have himp : scan_implicit_end_tag H self lexer = Except.ok (false, self, lexer) := by
    unfold scan_implicit_end_tag
    simp [hemp, heof, hname]
  unfold scan
  simp only [hskip, hexpr, hraw, heof, himplicit, himp]
  simp

/-- Witness of `no_implicit_close_at_end_of_input`: the stack `[DIV]` at the end
of the stream with only `IMPLICIT_END_TAG` acceptable. -/
theorem no_implicit_close_at_end_of_input_witness :
    scan sample_header { tags := [DIV] } (lexer_on []) only_implicit_end_tag =
      Except.ok (false, { tags := [DIV] }, lexer_on []) :=
  no_implicit_close_at_end_of_input sample_header { tags := [DIV] } (lexer_on [])
    only_implicit_end_tag DIV rfl (by decide) rfl rfl rfl rfl

/-! ## Start tags and end tags -/

theorem upper_name_isEmpty (n : List Nat) (hn : n ≠ []) : (upper_name n).isEmpty = false := by
  cases n with
  | nil => exact absurd rfl hn
  | cons c cs => simp [upper_name]

/-- C7. End-tag scan: on an input that begins with a non-empty run `n` of
tag-name characters `scan_end_tag_name` succeeds; when `for_name` of the name
equals the top of the stack it removes exactly that top tag and emits
`END_TAG_NAME`, otherwise (another top, or an empty stack) it emits
`ERRONEOUS_END_TAG_NAME` and leaves the stack unchanged. On an input with an
empty run it fails and leaves the stack unchanged. -/
theorem end_tag_scan (H : TagHeader) (self : Scanner2) (lexer : TSLexer) :
    (∀ n rest : List Nat, lexer.input = n ++ rest → n ≠ [] →
      (∀ c ∈ n, is_tag_name_char c = true) → is_tag_name_char (rest.headD 0) = false →
      scan_end_tag_name H self lexer =
        if self.tags.getLast?.any (fun top => H.eq top (H.for_name (upper_name n))) then
          (true, { tags := self.tags.dropLast },
            (consumed lexer n.length rest).set_result_symbol TokenType.END_TAG_NAME)
        else
          (true, self,
            (consumed lexer n.length rest).set_result_symbol
              TokenType.ERRONEOUS_END_TAG_NAME)) ∧
    (is_tag_name_char lexer.lookahead = false →
      scan_end_tag_name H self lexer = (false, self, lexer)) := by
  constructor
  · intro n rest hin hn hchars hrest
    have hname := scan_tag_name_run n rest lexer hin hchars hrest
    have hemp := upper_name_isEmpty n hn
    unfold scan_end_tag_name
    simp only [hname, hemp]
    cases hlast : self.tags.getLast? with
    | none => simp
    | some top =>
      cases htop : H.eq top (H.for_name (upper_name n)) <;> simp [htop]
  · intro h
    have hname := scan_tag_name_of_not_tag_char lexer h
    unfold scan_end_tag_name
    simp [hname]

/-- Witness of `end_tag_scan`: with the stack `[DIV, SPAN]` the input `span>` pops
`SPAN` and gives `END_TAG_NAME`, and the input `>` gives no token. -/
theorem end_tag_scan_witness :
    scan_end_tag_name sample_header { tags := [DIV, SPAN] }
        (lexer_on [115, 112, 97, 110, 62]) =
      (true, { tags := [DIV] },
        { input := [62], pos := 4, token_start := 0, token_end := none,
          result_symbol := some TokenType.END_TAG_NAME }) ∧
    scan_end_tag_name sample_header { tags := [DIV, SPAN] } (lexer_on [62]) =
      (false, { tags := [DIV, SPAN] }, lexer_on [62]) :=
  ⟨((end_tag_scan sample_header { tags := [DIV, SPAN] }
      (lexer_on [115, 112, 97, 110, 62])).1 [115, 112, 97, 110] [62] rfl (by decide)
      (by decide) (by decide)).trans (by decide),
    (end_tag_scan sample_header { tags := [DIV, SPAN] } (lexer_on [62])).2 (by decide)⟩

/-- C8. Start-tag scan: on an input that begins with a non-empty run `n` of
tag-name characters (letters, digits, `-`, `:`) `scan_start_tag_name` succeeds,
leaves the stack with the single tag `for_name` of the upper-cased name appended
at the top, and emits `SCRIPT_START_TAG_NAME` when the kind of that tag is
`SCRIPT`, `STYLE_START_TAG_NAME` when it is `STYLE` and `START_TAG_NAME` for
every other kind. On an input with an empty run it fails and leaves the stack
unchanged. -/
theorem start_tag_scan (H : TagHeader) (self : Scanner2) (lexer : TSLexer) :
    (∀ n rest : List Nat, lexer.input = n ++ rest → n ≠ [] →
      (∀ c ∈ n, is_tag_name_char c = true) → is_tag_name_char (rest.headD 0) = false →
      ∃ symbol : TokenType,
        scan_start_tag_name H self lexer =
          (true, { tags := self.tags ++ [H.for_name (upper_name n)] },
            (consumed lexer n.length rest).set_result_symbol symbol) ∧
        ((H.for_name (upper_name n)).type = H.SCRIPT →
          symbol = TokenType.SCRIPT_START_TAG_NAME) ∧
        ((H.for_name (upper_name n)).type = H.STYLE →
          symbol = TokenType.STYLE_START_TAG_NAME) ∧
        ((H.for_name (upper_name n)).type ≠ H.SCRIPT →
          (H.for_name (upper_name n)).type ≠ H.STYLE →
          symbol = TokenType.START_TAG_NAME)) ∧
    (is_tag_name_char lexer.lookahead = false →
      scan_start_tag_name H self lexer = (false, self, lexer)) := by
  constructor
  · intro n rest hin hn hchars hrest
    have hname := scan_tag_name_run n rest lexer hin hchars hrest
    have hemp := upper_name_isEmpty n hn
    unfold scan_start_tag_name
    simp only [hname, hemp]
    by_cases hscript : (H.for_name (upper_name n)).type = H.SCRIPT
    · refine ⟨TokenType.SCRIPT_START_TAG_NAME, by simp [hscript], fun _ => rfl, ?_,
        fun h => absurd hscript h⟩
      intro hstyle
      exact absurd (hscript.symm.trans hstyle) H.script_ne_style
    · by_cases hstyle : (H.for_name (upper_name n)).type = H.STYLE
      · refine ⟨TokenType.STYLE_START_TAG_NAME, ?_,
          fun h => absurd h hscript, fun _ => rfl, fun _ h => absurd hstyle h⟩
        rw [if_neg hscript, if_pos hstyle]
        simp
      · exact ⟨TokenType.START_TAG_NAME, by simp [hscript, hstyle],
          fun h => absurd h hscript, fun h => absurd h hstyle, fun _ _ => rfl⟩
  · intro h
    have hname := scan_tag_name_of_not_tag_char lexer h
    unfold scan_start_tag_name
    simp [hname]

/-- Witness of `start_tag_scan`: with the stack `[DIV]` the input `Script>` pushes
`SCRIPT`, and the input `>` gives no token. -/
theorem start_tag_scan_witness :
    (∃ symbol : TokenType,
      scan_start_tag_name sample_header { tags := [DIV] }
          (lexer_on [83, 99, 114, 105, 112, 116, 62]) =
        (true,
          { tags := [DIV] ++ [sample_header.for_name (upper_name [83, 99, 114, 105, 112, 116])] },
          (consumed (lexer_on [83, 99, 114, 105, 112, 116, 62])
            [83, 99, 114, 105, 112, 116].length [62]).set_result_symbol symbol) ∧
      ((sample_header.for_name (upper_name [83, 99, 114, 105, 112, 116])).type =
          sample_header.SCRIPT → symbol = TokenType.SCRIPT_START_TAG_NAME) ∧
      ((sample_header.for_name (upper_name [83, 99, 114, 105, 112, 116])).type =
          sample_header.STYLE → symbol = TokenType.STYLE_START_TAG_NAME) ∧
      ((sample_header.for_name (upper_name [83, 99, 114, 105, 112, 116])).type ≠
          sample_header.SCRIPT →
        (sample_header.for_name (upper_name [83, 99, 114, 105, 112, 116])).type ≠
          sample_header.STYLE → symbol = TokenType.START_TAG_NAME)) ∧
    scan_start_tag_name sample_header { tags := [DIV] } (lexer_on [62]) =
      (false, { tags := [DIV] }, lexer_on [62]) :=
  ⟨(start_tag_scan sample_header { tags := [DIV] }
      (lexer_on [83, 99, 114, 105, 112, 116, 62])).1 [83, 99, 114, 105, 112, 116] [62] rfl
      (by decide) (by decide) (by decide),
    (start_tag_scan sample_header { tags := [DIV] } (lexer_on [62])).2 (by decide)⟩

/-! ## Raw text -/

/-- The example of the spec for raw text: with the top tag `SCRIPT` the input
`console.log('</scr>');</SCRIPT>` gives `RAW_TEXT` with the end boundary at
position 22, immediately before `</SCRIPT`. -/
theorem scan_raw_text_spec_example :
    scan_raw_text sample_header { tags := [SCRIPT] }
        (lexer_on [99, 111, 110, 115, 111, 108, 101, 46, 108, 111, 103, 40, 39, 60, 47, 115,
          99, 114, 62, 39, 41, 59, 60, 47, 83, 67, 82, 73, 80, 84, 62]) =
      (true, { tags := [SCRIPT] },
        { input := [84, 62], pos := 29, token_start := 0, token_end := some 22,
          result_symbol := some TokenType.RAW_TEXT }) := by
  decide

/-- C9, evaluated at a failing input. With the top tag `SCRIPT` and the input
`<</SCRIPT>`, whose first occurrence of `</SCRIPT` starts at position 1,
`scan_raw_text` emits `RAW_TEXT` with the end boundary at position 10, the end
of the input: the second `<` is consumed as the mismatch of the first one and
the delimiter is not found. -/
theorem raw_text_misses_delimiter :
    ([60, 60, 47, 83, 67, 82, 73, 80, 84, 62].drop 1).take 8 = SCRIPT_END ∧
      scan_raw_text sample_header { tags := [SCRIPT] }
          (lexer_on [60, 60, 47, 83, 67, 82, 73, 80, 84, 62]) =
        (true, { tags := [SCRIPT] },
          { input := [], pos := 10, token_start := 0, token_end := some 10,
            result_symbol := some TokenType.RAW_TEXT }) := by
  decide

/-! ## Comments -/

theorem getD_run (d i c : Nat) (r : List Nat) :
    (List.replicate d 45 ++ c :: r).getD i 0 =
      if i < d then 45 else if i = d then c else r.getD (i - (d + 1)) 0 := by
  simp only [List.getD_eq_getElem?_getD, List.getElem?_append, List.length_replicate]
  split
  · rename_i h; simp [List.getElem?_replicate, h]
  · rename_i h
    split
    · rename_i h2; subst h2; simp
    · rename_i h2
      have : i - d = (i - (d + 1)) + 1 := by omega
      rw [this, List.getElem?_cons_succ]

theorem getD_in_dashes (d i : Nat) (r : List Nat) (h : i < d) :
    (List.replicate d 45 ++ r).getD i 0 = 45 := by
  simp only [List.getD_eq_getElem?_getD, List.getElem?_append, List.length_replicate,
    if_pos h, List.getElem?_replicate]
  rfl

theorem getD_dashes (d i : Nat) :
    (List.replicate d 45 ++ ([] : List Nat)).getD i 0 = if i < d then 45 else 0 := by
  simp only [List.append_nil, List.getD_eq_getElem?_getD, List.getElem?_replicate]
  split <;> rfl

theorem comment_token_advance (lexer : TSLexer) (c : Nat) (cs : List Nat) (m : Nat)
    (h : lexer.input = c :: cs) :
    comment_token (consumed lexer 1 cs) m = comment_token lexer (m + 1) := by
  simp only [comment_token, consumed, h, List.drop_succ_cons, Nat.add_assoc, Nat.add_comm 1 m]

theorem comment_token_one (lexer : TSLexer) (c : Nat) (cs : List Nat)
    (h : lexer.input = c :: cs) :
    ((lexer.set_result_symbol TokenType.COMMENT).advance false).mark_end =
      comment_token lexer 1 := by
  simp [TSLexer.set_result_symbol, TSLexer.advance, TSLexer.mark_end, comment_token, h]

/-- After a character that neither extends the run of dashes nor ends the
comment, an end occurs in the text read so far exactly when it occurs in the
text that follows the character. -/
theorem comment_end_at_after_reset (d c : Nat) (r : List Nat) (hc : c ≠ 45)
    (hcase : ¬ (c = 62 ∧ d ≥ 2)) (k : Nat) :
    comment_end_at (List.replicate d 45 ++ c :: r) k ↔
      d + 1 ≤ k ∧ comment_end_at r (k - (d + 1)) := by
  unfold comment_end_at
  rw [getD_run, getD_run, getD_run]
  by_cases hk : d + 1 ≤ k
  · have e1 : k + 1 - (d + 1) = k - (d + 1) + 1 := by omega
    have e2 : k + 2 - (d + 1) = k - (d + 1) + 2 := by omega
    rw [if_neg (by omega), if_neg (by omega), if_neg (by omega), if_neg (by omega),
      if_neg (by omega), if_neg (by omega), e1, e2]
    simp [hk]
  · constructor
    · rintro ⟨h1, h2, h3⟩
      exfalso
      by_cases a1 : k + 2 < d
      · rw [if_pos a1] at h3; omega
      · rw [if_neg a1] at h3
        by_cases a2 : k + 2 = d
        · rw [if_pos a2] at h3
          exact hcase ⟨h3, by omega⟩
        · by_cases a3 : k = d
          · rw [if_neg (by omega), if_pos a3] at h1
            exact hc h1
          · have a4 : k + 1 = d := by omega
            rw [if_neg (by omega), if_pos a4] at h2
            exact hc h2
    · rintro ⟨h, _⟩
      exact absurd h hk

theorem delivered_cons (c : Nat) (r : List Nat) (hc : c ≠ 0) :
    delivered (c :: r) = c :: delivered r := by
  simp [delivered, List.takeWhile_cons, hc]

theorem delivered_nul (r : List Nat) : delivered (0 :: r) = [] := by
  simp [delivered, List.takeWhile_cons]

theorem delivered_of_no_nul (r : List Nat) (h : ∀ c ∈ r, c ≠ 0) : delivered r = r := by
  unfold delivered
  rw [List.takeWhile_eq_self_iff]
  intro x hx
  simpa using h x hx

theorem no_comment_end_in_dashes (d k : Nat) :
    ¬ comment_end_at (List.replicate d 45 ++ ([] : List Nat)) k := by
  intro hk
  have h3 := hk.2.2
  rw [getD_dashes] at h3
  split at h3 <;> omega

/-- The loop of `scan_comment`, `d` dashes having just been read: it stops after
the first `>` that two dashes precede in the delivered text, and fails when there
is none. -/
theorem scan_comment_loop_spec :
    ∀ (r : List Nat) (d fuel : Nat) (lexer : TSLexer),
      lexer.input = r → r.length ≤ fuel →
      (∀ k, comment_end_at (List.replicate d 45 ++ delivered r) k →
        (∀ k2, k2 < k → ¬ comment_end_at (List.replicate d 45 ++ delivered r) k2) →
        scan_comment_loop fuel lexer d = (true, comment_token lexer (k + 3 - d))) ∧
      ((∀ k, ¬ comment_end_at (List.replicate d 45 ++ delivered r) k) →
        (scan_comment_loop fuel lexer d).1 = false) := by
  intro r
  induction r with
  | nil =>
    intro d fuel lexer hin _
    have hla : lexer.lookahead = 0 := by simp [TSLexer.lookahead, hin]
    constructor
    · intro k hk _
      exact absurd hk (no_comment_end_in_dashes d k)
    · intro _
      cases fuel with
      | zero => rfl
      | succ f => simp [scan_comment_loop, hla]
  | cons c r ih =>
    intro d fuel lexer hin hfuel
    have hla := lookahead_cons lexer c r hin
    have hadv := advance_cons lexer c r hin
    cases fuel with
    | zero => simp at hfuel
    | succ f =>
      have hf : r.length ≤ f := by simp only [List.length_cons] at hfuel; omega
      by_cases hc0 : c = 0
      · subst hc0
        rw [delivered_nul]
        constructor
        · intro k hk _
          exact absurd hk (no_comment_end_in_dashes d k)
        · intro _
          simp [scan_comment_loop, hla]
      rw [delivered_cons c r hc0, scan_comment_loop, hla, if_neg hc0]
      by_cases h45 : c = 45
      · subst h45
        rw [if_pos rfl, hadv]
        have htext : List.replicate d 45 ++ 45 :: delivered r =
            List.replicate (d + 1) 45 ++ delivered r := by
          rw [List.replicate_succ']; simp
        rw [htext]
        obtain ⟨iha, ihb⟩ := ih (d + 1) f (consumed lexer 1 r) rfl hf
        refine ⟨?_, ihb⟩
        intro k hk hmin
        have hge : d + 1 ≤ k + 2 := by
          by_contra hlt
          have h3 := hk.2.2
          rw [getD_in_dashes (d + 1) (k + 2) (delivered r) (by omega)] at h3
          omega
        rw [iha k hk hmin, comment_token_advance lexer 45 r _ hin]
        congr 2
        omega
      · rw [if_neg h45]
        by_cases h62 : c = 62 ∧ d ≥ 2
        · rw [if_pos h62, comment_token_one lexer c r hin]
          have hocc : comment_end_at (List.replicate d 45 ++ c :: delivered r) (d - 2) := by
            unfold comment_end_at
            rw [getD_run, getD_run, getD_run]
            rw [if_pos (by omega), if_pos (by omega), if_neg (by omega), if_pos (by omega)]
            exact ⟨rfl, rfl, h62.1⟩
          constructor
          · intro k hk hmin
            have hge : d ≤ k + 2 := by
              by_contra hlt
              have h3 := hk.2.2
              rw [getD_run, if_pos (by omega)] at h3
              omega
            have hle : ¬ d - 2 < k := fun hlt => hmin (d - 2) hlt hocc
            have : k + 3 - d = 1 := by omega
            rw [this]
          · intro hnone
            exact absurd hocc (hnone _)
        · rw [if_neg h62, hadv]
          obtain ⟨iha, ihb⟩ := ih 0 f (consumed lexer 1 r) rfl hf
          simp only [List.replicate_zero, List.nil_append] at iha ihb
          constructor
          · intro k hk hmin
            obtain ⟨hkd, hk2⟩ :=
              (comment_end_at_after_reset d c (delivered r) h45 h62 k).mp hk
            have hmin2 : ∀ k2, k2 < k - (d + 1) → ¬ comment_end_at (delivered r) k2 := by
              intro k2 hlt hocc
              apply hmin (k2 + (d + 1)) (by omega)
              rw [comment_end_at_after_reset d c (delivered r) h45 h62]
              exact ⟨by omega, by simpa using hocc⟩
            rw [iha _ hk2 hmin2, comment_token_advance lexer c r _ hin]
            congr 2
            omega
          · intro hnone
            apply ihb
            intro k hocc
            apply hnone (k + (d + 1))
            rw [comment_end_at_after_reset d c (delivered r) h45 h62]
            exact ⟨by omega, by simpa using hocc⟩

theorem scan_comment_of_dashes (lexer : TSLexer) (text : List Nat)
    (hin : lexer.input = 45 :: 45 :: text) :
    scan_comment lexer = scan_comment_loop text.length (consumed lexer 2 text) 0 := by
  have h1 := lookahead_cons lexer 45 _ hin
  have h2 := advance_cons lexer 45 _ hin
  have h3 := lookahead_cons (consumed lexer 1 (45 :: text)) 45 text rfl
  have h4 := advance_cons (consumed lexer 1 (45 :: text)) 45 text rfl
  rw [consumed_consumed] at h4
  unfold scan_comment
  simp only [h1, h2, h3, h4, ne_eq, not_true_eq_false, if_false]
  rfl

theorem scan_comment_without_dashes (lexer : TSLexer)
    (h : ¬ ∃ text, lexer.input = 45 :: 45 :: text) : (scan_comment lexer).1 = false := by
  unfold scan_comment
  by_cases h1 : lexer.lookahead = 45
  · cases hin : lexer.input with
    | nil => simp [TSLexer.lookahead, hin] at h1
    | cons c cs =>
      have hc : c = 45 := by simpa [TSLexer.lookahead, hin] using h1
      subst hc
      have hadv := advance_cons lexer 45 cs hin
      have h2 : (consumed lexer 1 cs).lookahead ≠ 45 := by
        intro h2
        cases cs with
        | nil => simp [TSLexer.lookahead, consumed] at h2
        | cons c2 cs2 =>
          have hc2 : c2 = 45 := by simpa [TSLexer.lookahead, consumed] using h2
          exact h ⟨cs2, by rw [hin, hc2]⟩
      simp [h1, hadv, h2]
  · simp [h1]

/-- C10 (as amended). Comment termination: for every input that follows a
consumed `<!`, `scan_comment` succeeds if and only if the input begins with `--`
and the text after those two dashes, up to its first NUL code point (which the
lexer shows as the end of the input), contains a `>` immediately preceded by two
`-`; on success the token is `COMMENT`, the code points up to that `>` are
consumed and the end boundary is immediately after the first such `>`. -/
theorem comment_termination (lexer : TSLexer) :
    ((scan_comment lexer).1 = true ↔
      ∃ text, lexer.input = 45 :: 45 :: text ∧ ∃ k, comment_end_at (delivered text) k) ∧
    (∀ text k, lexer.input = 45 :: 45 :: text → comment_end_at (delivered text) k →
      (∀ k2, k2 < k → ¬ comment_end_at (delivered text) k2) →
      scan_comment lexer = (true, comment_token lexer (2 + (k + 3)))) := by
  have hpos : ∀ text k, lexer.input = 45 :: 45 :: text →
      comment_end_at (delivered text) k →
      (∀ k2, k2 < k → ¬ comment_end_at (delivered text) k2) →
      scan_comment lexer = (true, comment_token lexer (2 + (k + 3))) := by
    intro text k hin hk hmin
    obtain ⟨ha, _⟩ := scan_comment_loop_spec text 0 text.length (consumed lexer 2 text) rfl
      (Nat.le_refl _)
    simp only [List.replicate_zero, List.nil_append] at ha
    rw [scan_comment_of_dashes lexer text hin, ha k hk hmin]
    simp only [comment_token, consumed, hin, List.drop_succ_cons, Nat.sub_zero,
      Nat.add_assoc, Nat.add_comm 2 (k + 3)]
  refine ⟨⟨?_, ?_⟩, hpos⟩
  · intro hs
    by_contra hno
    by_cases hd : ∃ text, lexer.input = 45 :: 45 :: text
    · obtain ⟨text, hin⟩ := hd
      obtain ⟨_, hb⟩ := scan_comment_loop_spec text 0 text.length (consumed lexer 2 text) rfl
        (Nat.le_refl _)
      simp only [List.replicate_zero, List.nil_append] at hb
      have hnone : ∀ k, ¬ comment_end_at (delivered text) k :=
        fun k hk => hno ⟨text, hin, k, hk⟩
      rw [scan_comment_of_dashes lexer text hin, hb hnone] at hs
      exact Bool.false_ne_true hs
    · rw [scan_comment_without_dashes lexer hd] at hs
      exact Bool.false_ne_true hs
  · rintro ⟨text, hin, hex⟩
    have hfirst := Nat.find_spec hex
    have hmin : ∀ k2, k2 < Nat.find hex → ¬ comment_end_at (delivered text) k2 :=
      fun k2 hlt => Nat.find_min hex hlt
    rw [hpos text (Nat.find hex) hin hfirst hmin]

/-- Witness of `comment_termination` (the examples of the spec):
`<!-- a--b -- -->` is one comment that ends after the final `>`, and `<!-- ->` is
not a comment. -/
theorem comment_termination_witness :
    scan_comment (lexer_on [45, 45, 32, 97, 45, 45, 98, 32, 45, 45, 32, 45, 45, 62]) =
      (true,
        { input := [], pos := 14, token_start := 0, token_end := some 14,
          result_symbol := some TokenType.COMMENT }) ∧
    (scan_comment (lexer_on [45, 45, 32, 45, 62])).1 = false :=
  ⟨((comment_termination
      (lexer_on [45, 45, 32, 97, 45, 45, 98, 32, 45, 45, 32, 45, 45, 62])).2
      [32, 97, 45, 45, 98, 32, 45, 45, 32, 45, 45, 62] 9 rfl (by decide) (by decide)).trans
      (by decide),
    by decide⟩

/-- C10 (as stated) fails: the input after `<!` is `--`, a NUL code point and
`-->`. It begins with `--` and the text after those two dashes contains a `>`
immediately preceded by two `-` (at index 1), but `scan_comment` fails: the loop
`while (lexer->lookahead)` ends at the NUL. -/
theorem comment_with_nul_counterexample :
    (∃ text, (lexer_on [45, 45, 0, 45, 45, 62]).input = 45 :: 45 :: text ∧
        ∃ k, comment_end_at text k) ∧
      (scan_comment (lexer_on [45, 45, 0, 45, 45, 62])).1 = false :=
  ⟨⟨[0, 45, 45, 62], rfl, 1, by decide⟩, by decide⟩

/-! ## Expressions: the code evaluated on inputs that show its defects -/

/-- C11, evaluated at a failing input. In plain-expression mode the input is the
code point U+017D followed by `}`: the first `}` is at position 1, but
`char c = lexer->lookahead` keeps the low eight bits `0x7D` of U+017D, which is
`}`, so `scan_raw_text_expr` emits `RAW_TEXT_EXPR` with the end boundary at
position 0. -/
theorem expression_stops_at_truncated_code_point :
    to_char 381 = 125 ∧
      scan_raw_text_expr (lexer_on [381, 125]) TokenType.RAW_TEXT_EXPR =
        Except.ok (true,
          { input := [381, 125], pos := 0, token_start := 0, token_end := some 0,
            result_symbol := some TokenType.RAW_TEXT_EXPR }) := by
  decide

/-- C12, evaluated at a failing input. In await mode the input is `p  then v}`
with two spaces: the space at position 2 is followed by `then` and a space, but
it is consumed unexamined after the keyword check of the space at position 1,
and `scan_raw_text_expr` emits `RAW_TEXT_EXPR` with the end boundary at
position 9, before the `}`. -/
theorem keyword_after_two_spaces_is_missed :
    scan_raw_text_expr (lexer_on [112, 32, 32, 116, 104, 101, 110, 32, 118, 125])
        TokenType.RAW_TEXT_AWAIT =
      Except.ok (true,
        { input := [125], pos := 9, token_start := 0, token_end := some 9,
          result_symbol := some TokenType.RAW_TEXT_EXPR }) := by
  decide

/-- C13, evaluated at a failing input. With an empty tag stack, the input `/>` and
`SELF_CLOSING_TAG_DELIMITER` acceptable, `scan` returns `true` and has assigned
no token kind. -/
theorem self_closing_on_empty_stack_sets_no_token :
    scan sample_header { tags := [] } (lexer_on [47, 62]) only_self_closing_tag_delimiter =
      Except.ok (true, { tags := [] },
        { input := [], pos := 2, token_start := 0, token_end := none,
          result_symbol := none }) := by
  decide

/-- C14, evaluated at a failing input. With an empty tag stack, the input `<div>`
and `IMPLICIT_END_TAG` acceptable, `scan` calls `scan_implicit_end_tag`, which
takes `&tags.back()` of the empty vector and reads it in `parent->is_void()`. -/
theorem implicit_end_tag_reads_top_of_empty_stack :
    scan sample_header { tags := [] } (lexer_on [60, 100, 105, 118, 62])
        only_implicit_end_tag =
      Except.error Fault.read_back_of_empty_tags := by
  decide

/-- C16, evaluated at a failing input. The input `x }` contains neither `t` nor
`a`. In plain mode `scan_raw_text_expr` emits `RAW_TEXT_EXPR` with the end
boundary at position 2, before the `}`; in await mode and in each mode the `}`
after the space is consumed unexamined and the scan fails. -/
theorem await_mode_skips_brace_after_space :
    scan_raw_text_expr (lexer_on [120, 32, 125]) TokenType.RAW_TEXT_EXPR =
        Except.ok (true,
          { input := [125], pos := 2, token_start := 0, token_end := some 2,
            result_symbol := some TokenType.RAW_TEXT_EXPR }) ∧
      scan_raw_text_expr (lexer_on [120, 32, 125]) TokenType.RAW_TEXT_AWAIT =
        Except.ok (false,
          { input := [], pos := 3, token_start := 0, token_end := some 1,
            result_symbol := none }) ∧
      scan_raw_text_expr (lexer_on [120, 32, 125]) TokenType.RAW_TEXT_EACH =
        Except.ok (false,
          { input := [], pos := 3, token_start := 0, token_end := some 1,
            result_symbol := none }) := by
  decide

/-- C17, evaluated at failing inputs. In await mode the input `p t v}`, where the
space is followed by the proper prefix `t` of `then` and a space, gives
`RAW_TEXT_AWAIT` with the end boundary at position 1; in each mode the input
`x a y}` gives `RAW_TEXT_EACH` in the same way. -/
theorem keyword_prefix_is_accepted :
    scan_raw_text_expr (lexer_on [112, 32, 116, 32, 118, 125]) TokenType.RAW_TEXT_AWAIT =
        Except.ok (true,
          { input := [32, 118, 125], pos := 3, token_start := 0, token_end := some 1,
            result_symbol := some TokenType.RAW_TEXT_AWAIT }) ∧
      scan_raw_text_expr (lexer_on [120, 32, 97, 32, 121, 125]) TokenType.RAW_TEXT_EACH =
        Except.ok (true,
          { input := [32, 121, 125], pos := 3, token_start := 0, token_end := some 1,
            result_symbol := some TokenType.RAW_TEXT_EACH }) := by
  decide

/-- C20, evaluated at a failing input. In await mode the input `p then` ends right
after the keyword: in `scan_word` the lookahead `0` equals the terminator
`word[4]`, the loop goes on and reads `word[5]`, past the terminator. The same
happens for `scan_word` on `then` alone and in each mode on `x as`. -/
theorem scan_word_reads_past_keyword :
    scan_raw_text_expr (lexer_on [112, 32, 116, 104, 101, 110]) TokenType.RAW_TEXT_AWAIT =
        Except.error Fault.read_past_word ∧
      scan_word (lexer_on [116, 104, 101, 110]) THEN = Except.error Fault.read_past_word ∧
      scan_raw_text_expr (lexer_on [120, 32, 97, 115]) TokenType.RAW_TEXT_EACH =
        Except.error Fault.read_past_word := by
  decide

/-! ## The stack after a failed scan -/

theorem scan_implicit_end_tag_false (H : TagHeader) (self s2 : Scanner2) (lexer lx : TSLexer)
    (h : scan_implicit_end_tag H self lexer = Except.ok (false, s2, lx)) : s2 = self := by
  unfold scan_implicit_end_tag at h
  simp only [] at h
  repeat' split at h
  all_goals simp_all

theorem scan_start_tag_name_false (H : TagHeader) (self s2 : Scanner2) (lexer lx : TSLexer)
    (h : scan_start_tag_name H self lexer = (false, s2, lx)) : s2 = self := by
  unfold scan_start_tag_name at h
  simp only [] at h
  repeat' split at h
  all_goals simp_all

theorem scan_end_tag_name_false (H : TagHeader) (self s2 : Scanner2) (lexer lx : TSLexer)
    (h : scan_end_tag_name H self lexer = (false, s2, lx)) : s2 = self := by
  unfold scan_end_tag_name at h
  simp only [] at h
  repeat' split at h
  all_goals simp_all

theorem scan_self_closing_tag_delimiter_false (self s2 : Scanner2) (lexer lx : TSLexer)
    (h : scan_self_closing_tag_delimiter self lexer = (false, s2, lx)) : s2 = self := by
  unfold scan_self_closing_tag_delimiter at h
  simp only [] at h
  repeat' split at h
  all_goals simp_all

theorem scan_raw_text_stack (H : TagHeader) (self : Scanner2) (lexer : TSLexer) :
    (scan_raw_text H self lexer).2.1 = self := by
  unfold scan_raw_text
  split <;> rfl

theorem with_scanner_stack (self s2 : Scanner2) (r : Except Fault (Bool × TSLexer)) (b : Bool)
    (lx : TSLexer) (h : with_scanner self r = Except.ok (b, s2, lx)) : s2 = self := by
  unfold with_scanner at h
  split at h
  · exact absurd h (by simp)
  · simp only [Except.ok.injEq, Prod.mk.injEq] at h
    exact h.2.1.symm

theorem ok_raw_text_stack (H : TagHeader) (self s2 : Scanner2) (lexer lx : TSLexer) (b : Bool)
    (h : (Except.ok (scan_raw_text H self lexer) : Except Fault (Bool × Scanner2 × TSLexer)) =
      Except.ok (b, s2, lx)) : s2 = self := by
  have hs := scan_raw_text_stack H self lexer
  simp only [Except.ok.injEq] at h
  rw [h] at hs
  exact hs

/-- C19. Failure is atomic on the stack: for every tag stack, every input and
every valid-symbol set, when `scan` returns `false` the tag stack after the call
is the stack before it; and when the dispatcher runs the expression scanner
(`RAW_TEXT_EXPR` acceptable), the raw-text scanner (`RAW_TEXT` acceptable and
neither tag-name kind) or the comment scanner (the input after the whitespace
begins with `<!`), the stack after the call is the stack before it whether the
scan succeeds or fails; `scan_raw_text` itself hands the stack back unchanged. -/
theorem failure_is_atomic_on_the_stack (H : TagHeader) (self : Scanner2) (lexer : TSLexer)
    (valid_symbols : TokenType → Bool) :
    (∀ s2 lx, scan H self lexer valid_symbols = Except.ok (false, s2, lx) → s2 = self) ∧
    (∀ b s2 lx, scan H self lexer valid_symbols = Except.ok (b, s2, lx) →
      (valid_symbols TokenType.RAW_TEXT_EXPR = true ∨
        (valid_symbols TokenType.RAW_TEXT = true ∧
          valid_symbols TokenType.START_TAG_NAME = false ∧
          valid_symbols TokenType.END_TAG_NAME = false) ∨
        ∃ rest, (skip_whitespace lexer.input.length lexer).input = 60 :: 33 :: rest) →
      s2 = self) ∧
    (scan_raw_text H self lexer).2.1 = self := by
  refine ⟨?_, ?_, scan_raw_text_stack H self lexer⟩
  · intro s2 lx h
    unfold scan at h
    simp only [] at h
    repeat' split at h
    all_goals first
      | exact with_scanner_stack _ _ _ _ _ h
      | exact scan_implicit_end_tag_false _ _ _ _ _ h
      | exact ok_raw_text_stack _ _ _ _ _ _ h
      | (simp only [Except.ok.injEq] at h; first
          | exact scan_start_tag_name_false _ _ _ _ _ h
          | exact scan_end_tag_name_false _ _ _ _ _ h
          | exact scan_self_closing_tag_delimiter_false _ _ _ _ h
          | (simp only [Prod.mk.injEq] at h; exact h.2.1.symm))
  · intro b s2 lx h hbranch
    unfold scan at h
    simp only [] at h
    by_cases hexpr : valid_symbols TokenType.RAW_TEXT_EXPR = true
    · simp only [hexpr, Bool.true_and, if_true] at h
      repeat' split at h
      all_goals first
        | exact with_scanner_stack _ _ _ _ _ h
        | (simp only [Except.ok.injEq, Prod.mk.injEq] at h; exact h.2.1.symm)
    · have hexpr2 : valid_symbols TokenType.RAW_TEXT_EXPR = false := by simpa using hexpr
      simp only [hexpr2, Bool.false_and, Bool.false_eq_true, if_false] at h
      by_cases hraw : (valid_symbols TokenType.RAW_TEXT &&
          !valid_symbols TokenType.START_TAG_NAME &&
          !valid_symbols TokenType.END_TAG_NAME) = true
      · rw [if_pos hraw] at h
        exact ok_raw_text_stack H self _ _ _ b h
      · rw [if_neg hraw] at h
        rcases hbranch with h1 | h2 | ⟨rest, hrest⟩
        · exact absurd h1 hexpr
        · exfalso; apply hraw; simp [h2.1, h2.2.1, h2.2.2]
        · have hla : (skip_whitespace lexer.input.length lexer).lookahead = 60 := by
            simp [TSLexer.lookahead, hrest]
          have hla2 : (((skip_whitespace lexer.input.length lexer).mark_end).advance
              false).lookahead = 33 := by
            simp [TSLexer.lookahead, TSLexer.advance, TSLexer.mark_end, hrest]
          rw [if_pos hla] at h
          simp only [hla2, if_true, Except.ok.injEq, Prod.mk.injEq] at h
          exact h.2.1.symm

/-- Witness of `failure_is_atomic_on_the_stack`: with the stack `[DIV]`, the input
`/x` with `SELF_CLOSING_TAG_DELIMITER` acceptable fails, and the input ` <!---->`
is scanned as a comment; both leave the stack `[DIV]`. -/
theorem failure_is_atomic_on_the_stack_witness :
    scan sample_header { tags := [DIV] } (lexer_on [47, 120])
        only_self_closing_tag_delimiter =
      Except.ok (false, { tags := [DIV] },
        { input := [120], pos := 1, token_start := 0, token_end := none,
          result_symbol := none }) ∧
    scan sample_header { tags := [DIV] } (lexer_on [32, 60, 33, 45, 45, 45, 45, 62])
        only_implicit_end_tag =
      Except.ok (true, { tags := [DIV] },
        { input := [], pos := 8, token_start := 1, token_end := some 8,
          result_symbol := some TokenType.COMMENT }) ∧
    ({ tags := [DIV] } : Scanner2) = { tags := [DIV] } ∧
    ({ tags := [DIV] } : Scanner2) = { tags := [DIV] } :=
  ⟨by decide, by decide,
    (failure_is_atomic_on_the_stack sample_header { tags := [DIV] } (lexer_on [47, 120])
      only_self_closing_tag_delimiter).1 { tags := [DIV] }
      { input := [120], pos := 1, token_start := 0, token_end := none,
        result_symbol := none } (by decide),
    (failure_is_atomic_on_the_stack sample_header { tags := [DIV] }
      (lexer_on [32, 60, 33, 45, 45, 45, 45, 62]) only_implicit_end_tag).2.1 true
      { tags := [DIV] }
      { input := [], pos := 8, token_start := 1, token_end := some 8,
        result_symbol := some TokenType.COMMENT } (by decide)
      (Or.inr (Or.inr ⟨[45, 45, 45, 45, 62], by decide⟩))⟩

/-! ## Serialisation: the number of records stored -/

/-- The loop of `serialize` stops either after the last tag or at the first tag
whose record would bring the index to the capacity or beyond. -/
theorem serialize_loop_stop (H : TagHeader) (C : Nat) :
    ∀ (ts : List Tag) (i : Nat) (w : List Nat) (k : Nat),
      ∃ m, m ≤ ts.length ∧
        serialize_loop H C ts i w k =
          (i + ((ts.take m).flatMap (record H)).length,
            w ++ (ts.take m).flatMap (record H), k + m) ∧
        (0 < m → i + ((ts.take m).flatMap (record H)).length < C) ∧
        (m < ts.length → C ≤ i + ((ts.take (m + 1)).flatMap (record H)).length) := by
  intro ts
  induction ts with
  | nil => intro i w k; exact ⟨0, by simp [serialize_loop]⟩
  | cons t rest ih =>
    intro i w k
    rw [serialize_loop_cons]
    by_cases hfull : i + (record H t).length ≥ C
    · refine ⟨0, by simp, by simp [hfull], by simp, ?_⟩
      intro _
      simpa using hfull
    · obtain ⟨m, hm, heq, hlt, hstop⟩ :=
        ih (i + (record H t).length) (w ++ record H t) (k + 1)
      refine ⟨m + 1, by simpa using hm, ?_, ?_, ?_⟩
      · rw [if_neg hfull, heq]
        simp only [List.take_succ_cons, List.flatMap_cons, List.length_append,
          List.append_assoc]
        refine Prod.ext ?_ (Prod.ext rfl ?_)
        · simp only; omega
        · simp only; omega
      · intro _
        simp only [List.take_succ_cons, List.flatMap_cons, List.length_append]
        rcases Nat.eq_zero_or_pos m with h0 | hpos
        · subst h0
          simp only [List.take_zero, List.flatMap_nil, List.length_nil]
          omega
        · have := hlt hpos
          omega
      · intro hm2
        have := hstop (by simpa using hm2)
        simp only [List.take_succ_cons, List.flatMap_cons, List.length_append] at this ⊢
        omega

theorem records_length_eq_sum (H : TagHeader) (ts : List Tag)
    (hlen : ∀ t ∈ ts, t.custom_tag_name.length < 4294967296) :
    (ts.flatMap (record H)).length = (ts.map (record_size H)).sum := by
  induction ts with
  | nil => rfl
  | cons t rest ih =>
    have ht := hlen t (List.mem_cons_self _ _)
    have hmod : t.custom_tag_name.length % 4294967296 = t.custom_tag_name.length :=
      Nat.mod_eq_of_lt ht
    rw [List.flatMap_cons, List.length_append, List.map_cons, List.sum_cons,
      ih (fun x hx => hlen x (List.mem_cons_of_mem _ hx)), record_length]
    simp only [record_size, hmod, UINT8_MAX]

theorem occupied_mono (H : TagHeader) (tags : List Tag) (k k2 : Nat) (h : k ≤ k2) :
    occupied H tags k ≤ occupied H tags k2 := by
  obtain ⟨d, rfl⟩ := Nat.exists_eq_add_of_le h
  simp only [occupied, List.take_add, List.map_append, List.sum_append]
  omega

/-- C18 (as amended). Serialisation writes the longest prefix that stays below
the capacity: for a capacity `C > 4` and every tag stack (names shorter than
`2^32` bytes), the `serialized_count` that `serialize` writes is the largest
`k ≤ min (stack size) 65535` such that the 4 header bytes plus the records of
the first `k` tags (1 byte for a tag that is not `CUSTOM`, `2 + min (name
length) 255` bytes for a `CUSTOM` tag) occupy fewer than `C` bytes. -/
theorem serialize_longest_prefix_below_capacity (H : TagHeader) (C : Nat) (tags : List Tag)
    (hC : 4 < C) (hlen : ∀ t ∈ tags, t.custom_tag_name.length < 4294967296) :
    serialized_count (serialize H C tags).1 ≤ min tags.length 65535 ∧
      occupied H tags (serialized_count (serialize H C tags).1) < C ∧
      ∀ k, serialized_count (serialize H C tags).1 < k → k ≤ min tags.length 65535 →
        C ≤ occupied H tags k := by
  have htc : (if tags.length > UINT16_MAX then UINT16_MAX else tags.length) =
      min tags.length 65535 := by
    simp only [UINT16_MAX]; split <;> omega
  obtain ⟨m, hm, heq, hlt, hstop⟩ :=
    serialize_loop_stop H C (tags.take (min tags.length 65535)) 4 [] 0
  have hm2 : m ≤ min tags.length 65535 := by
    simpa [List.length_take] using hm
  have htake : ∀ j, j ≤ min tags.length 65535 →
      (tags.take (min tags.length 65535)).take j = tags.take j := by
    intro j hj
    rw [List.take_take]
    congr 1
    omega
  have hsum : ∀ j, ((tags.take j).flatMap (record H)).length =
      ((tags.take j).map (record_size H)).sum :=
    fun j => records_length_eq_sum H _ (fun t ht => hlen t (List.mem_of_mem_take ht))
  have hcount : serialized_count (serialize H C tags).1 = m := by
    have hreads := u16_read_bytes m (min tags.length 65535)
      ((tags.take m).flatMap (record H)) (by omega) (by omega)
    rw [serialized_count]
    simp only [serialize, htc, heq, htake m hm2]
    simpa using hreads.1
  rw [hcount]
  refine ⟨hm2, ?_, ?_⟩
  · rcases Nat.eq_zero_or_pos m with h0 | hpos
    · subst h0
      simp only [occupied, List.take_zero, List.map_nil, List.sum_nil]
      omega
    · have := hlt hpos
      rw [htake m hm2, hsum] at this
      exact this
  · intro k hk hk2
    have hlen2 : m < (tags.take (min tags.length 65535)).length := by
      rw [List.length_take]; omega
    have hs := hstop hlen2
    rw [htake (m + 1) (by omega), hsum] at hs
    exact Nat.le_trans hs (occupied_mono H tags (m + 1) k hk)

set_option maxRecDepth 100000 in
/-- Witness of `serialize_longest_prefix_below_capacity`: capacity 1024 and four
`CUSTOM` tags whose records fill the buffer exactly, of which three are stored. -/
theorem serialize_longest_prefix_below_capacity_witness :
    serialized_count (serialize sample_header 1024 exact_fit).1 ≤
        min exact_fit.length 65535 ∧
      occupied sample_header exact_fit
        (serialized_count (serialize sample_header 1024 exact_fit).1) < 1024 ∧
      ∀ k, serialized_count (serialize sample_header 1024 exact_fit).1 < k →
        k ≤ min exact_fit.length 65535 → 1024 ≤ occupied sample_header exact_fit k :=
  serialize_longest_prefix_below_capacity sample_header 1024 exact_fit (by decide)
    (by decide)

set_option maxRecDepth 100000 in
/-- C18 (as stated) fails: with capacity 1024 and four `CUSTOM` tags with names
of 255, 255, 255 and 247 bytes, the header and the records of all four tags
occupy exactly 1024 bytes, which is at most the capacity, but `serialize` stores
three records and returns the length 775: the last record is left out although
writing it would not exceed the capacity. -/
theorem exact_fit_counterexample :
    exact_fit.length = 4 ∧
      occupied sample_header exact_fit 4 = 1024 ∧
      serialized_count (serialize sample_header 1024 exact_fit).1 = 3 ∧
      (serialize sample_header 1024 exact_fit).2 = 775 := by
  decide

/-! ## Raw text that runs to the end of the input -/

theorem take_succ_getD (D : List Nat) (j : Nat) (h : j < D.length) :
    D.take j ++ [D.getD j 0] = D.take (j + 1) := by
  rw [List.take_succ, List.getD_eq_getElem _ _ h, List.getElem?_eq_getElem h]
  rfl

theorem match_index_snoc (D done : List Nat) (c : Nat) :
    match_index D (done ++ [c]) =
      if towupper c = D.getD (match_index D done) 0 then match_index D done + 1 else 0 := by
  simp [match_index, List.foldl_append]

theorem not_contains_delimiter_of_append (D done r : List Nat)
    (h : ¬ contains_delimiter D (done ++ r)) : ¬ contains_delimiter D done := by
  rintro ⟨pre, post, heq⟩
  apply h
  refine ⟨pre, post ++ r.map towupper, ?_⟩
  rw [List.map_append, heq]
  simp

/-- The loop of `scan_raw_text` on an input whose delivered text does not
complete the delimiter: the delivered text is consumed and the end of the token
stays where it was last marked, before the characters that are being matched
when the text ends. The last `j` characters read (`done` is the text read so
far) are the first `j` of the delimiter, and the end was last marked before
them. -/
theorem scan_raw_text_loop_to_end (D : List Nat) :
    ∀ (r done : List Nat) (j fuel m : Nat) (lexer : TSLexer),
      lexer.input = r → r.length ≤ fuel → j < D.length →
      (∃ p, done.map towupper = p ++ D.take j) → j = match_index D done →
      lexer.token_end = some m → m + j = lexer.pos →
      ¬ contains_delimiter D (done ++ delivered r) →
      scan_raw_text_loop D fuel lexer j =
        { lexer with
          input := r.drop (delivered r).length
          pos := lexer.pos + (delivered r).length
          token_end := some (lexer.pos + (delivered r).length -
            match_index D (done ++ delivered r)) } := by
  intro r
  induction r with
  | nil =>
    intro done j fuel m lexer hin _ hj hinv hidx hend hm _
    have hla : lexer.lookahead = 0 := by simp [TSLexer.lookahead, hin]
    have hres : scan_raw_text_loop D fuel lexer j = lexer := by
      cases fuel with
      | zero => rfl
      | succ f => simp [scan_raw_text_loop, hla]
    have hd : delivered ([] : List Nat) = [] := rfl
    have hm2 : lexer.pos - match_index D done = m := by omega
    rw [hres, hd, List.append_nil, List.length_nil, Nat.add_zero, hm2]
    cases lexer
    simp_all
  | cons c r ih =>
    intro done j fuel m lexer hin hfuel hj hinv hidx hend hm hno
    have hla := lookahead_cons lexer c r hin
    have hadv := advance_cons lexer c r hin
    cases fuel with
    | zero => simp at hfuel
    | succ f =>
      have hf : r.length ≤ f := by simp only [List.length_cons] at hfuel; omega
      by_cases hc0 : c = 0
      · subst hc0
        have hres : scan_raw_text_loop D (f + 1) lexer j = lexer := by
          simp [scan_raw_text_loop, hla]
        have hm2 : lexer.pos - match_index D done = m := by omega
        rw [hres, delivered_nul, List.append_nil, List.length_nil, Nat.add_zero, hm2,
          List.drop_zero]
        cases lexer
        simp_all
      rw [delivered_cons c r hc0] at hno ⊢
      have happ : (done ++ [c]) ++ delivered r = done ++ c :: delivered r := by simp
      rw [scan_raw_text_loop, hla, if_neg hc0]
      obtain ⟨p, hp⟩ := hinv
      have hsnoc := match_index_snoc D done c
      rw [← hidx] at hsnoc
      by_cases hmatch : towupper c = D.getD j 0
      · rw [if_pos hmatch]
        rw [if_pos hmatch] at hsnoc
        have hp2 : (done ++ [c]).map towupper = p ++ D.take (j + 1) := by
          rw [List.map_append, hp, List.map_singleton, hmatch, List.append_assoc,
            take_succ_getD D j hj]
        by_cases hlast : j + 1 = D.length
        · exfalso
          apply hno
          refine ⟨p, (delivered r).map towupper, ?_⟩
          rw [← happ, List.map_append, hp2, hlast, List.take_length]
        · rw [if_neg hlast, hadv]
          rw [ih (done ++ [c]) (j + 1) f m (consumed lexer 1 r) rfl hf (by omega)
            ⟨p, hp2⟩ hsnoc.symm (by simpa [consumed] using hend)
            (by simp only [consumed]; omega) (by rw [happ]; exact hno)]
          simp only [consumed, List.length_cons, happ, List.drop_succ_cons]
          congr 1
          · omega
          · congr 1; omega
      · rw [if_neg hmatch, hadv]
        rw [if_neg hmatch] at hsnoc
        rw [ih (done ++ [c]) 0 f (lexer.pos + 1) (consumed lexer 1 r).mark_end rfl hf
          (by omega) ⟨(done ++ [c]).map towupper, by simp⟩ hsnoc.symm rfl rfl
          (by rw [happ]; exact hno)]
        simp only [consumed, TSLexer.mark_end, List.length_cons, happ, List.drop_succ_cons]
        congr 1
        · omega
        · congr 1; omega

theorem end_delimiter_of_length_pos (H : TagHeader) (back : Tag) :
    0 < (end_delimiter_of H back).length := by
  unfold end_delimiter_of
  split <;> decide

theorem not_contains_delimiter_of_short (D text : List Nat) (h : text.length < D.length) :
    ¬ contains_delimiter D text := by
  rintro ⟨pre, post, heq⟩
  have hlen := congrArg List.length heq
  simp only [List.length_map, List.length_append] at hlen
  omega

/-- In a text that does not complete the delimiter, the match index is the length
of a part of the delimiter, taken from its start, in which the text ends. -/
theorem match_index_suffix (D : List Nat) (hD : 0 < D.length) :
    ∀ text : List Nat, ¬ contains_delimiter D text →
      match_index D text < D.length ∧
        ∃ p, text.map towupper = p ++ D.take (match_index D text) := by
  intro text
  induction text using List.reverseRecOn with
  | nil =>
    intro _
    exact ⟨hD, [], by simp [match_index]⟩
  | append_singleton done c ih =>
    intro hno
    obtain ⟨hlt, p, hp⟩ := ih (not_contains_delimiter_of_append D done [c] hno)
    rw [match_index_snoc]
    by_cases hmatch : towupper c = D.getD (match_index D done) 0
    · rw [if_pos hmatch]
      have hp2 : (done ++ [c]).map towupper = p ++ D.take (match_index D done + 1) := by
        rw [List.map_append, hp, List.map_singleton, hmatch, List.append_assoc,
          take_succ_getD D _ hlt]
      refine ⟨?_, p, hp2⟩
      by_contra hge
      have hlast : match_index D done + 1 = D.length := by omega
      apply hno
      refine ⟨p, [], ?_⟩
      rw [hp2, hlast, List.take_length, List.append_nil]
    · rw [if_neg hmatch]
      exact ⟨hD, (done ++ [c]).map towupper, by simp⟩

/-- C15 (as amended). Raw text without a closing delimiter: for every non-empty
tag stack `scan_raw_text` succeeds with token `RAW_TEXT` and leaves the stack
unchanged; and for every input whose text, up to its first NUL code point (which
the lexer shows as the end of the input), contains no complete
(case-insensitive) occurrence of the end delimiter, all of that text is consumed
and the end boundary lies before the trailing code points that are being matched
against the delimiter when the text ends (`match_index` of them, fewer than the
delimiter has); so the end boundary is at the end of the text exactly when no
match is in progress there, which is the case whenever the text does not end in
a non-empty proper part of the delimiter taken from its start. -/
theorem raw_text_without_delimiter (H : TagHeader) (self : Scanner2) (lexer : TSLexer)
    (top : Tag) (htop : self.tags.getLast? = some top) :
    (∃ lx, scan_raw_text H self lexer = (true, self, lx) ∧
      lx.result_symbol = some TokenType.RAW_TEXT) ∧
    (¬ contains_delimiter (end_delimiter_of H top) (delivered lexer.input) →
      scan_raw_text H self lexer =
          (true, self, raw_text_token lexer (delivered lexer.input).length
            (match_index (end_delimiter_of H top) (delivered lexer.input))) ∧
        match_index (end_delimiter_of H top) (delivered lexer.input) <
          (end_delimiter_of H top).length ∧
        match_index (end_delimiter_of H top) (delivered lexer.input) ≤
          (delivered lexer.input).length ∧
        (¬ ends_in_partial_delimiter (end_delimiter_of H top) (delivered lexer.input) →
          match_index (end_delimiter_of H top) (delivered lexer.input) = 0)) := by
  constructor
  · unfold scan_raw_text
    rw [htop]
    exact ⟨_, rfl, rfl⟩
  · intro hno
    obtain ⟨hlt, p, hp⟩ := match_index_suffix (end_delimiter_of H top)
      (end_delimiter_of_length_pos H top) (delivered lexer.input) hno
    refine ⟨?_, hlt, ?_, ?_⟩
    · have hloop := scan_raw_text_loop_to_end (end_delimiter_of H top) lexer.input [] 0
        lexer.input.length lexer.pos lexer.mark_end rfl (Nat.le_refl _)
        (end_delimiter_of_length_pos H top) ⟨[], by simp⟩ rfl rfl rfl
        (by simpa using hno)
      unfold scan_raw_text
      rw [htop]
      simp only []
      have hD : (if top.type = H.SCRIPT then SCRIPT_END else STYLE_END) =
          end_delimiter_of H top := rfl
      have hin : lexer.mark_end.input = lexer.input := rfl
      rw [hD, hin, hloop]
      rfl
    · have hlen := congrArg List.length hp
      simp only [List.length_map, List.length_append, List.length_take] at hlen
      omega
    · intro hpart
      by_contra hne
      exact hpart ⟨_, p, Nat.pos_of_ne_zero hne, hlt, hp⟩

/-- Witness of `raw_text_without_delimiter`: with the top tag `SCRIPT` the input
`<<` is a raw text that ends at position 2, the end of the input: the second `<`
does not continue the delimiter, so no match is in progress there. -/
theorem raw_text_without_delimiter_witness :
    scan_raw_text sample_header { tags := [SCRIPT] } (lexer_on [60, 60]) =
      (true, { tags := [SCRIPT] },
        { input := [], pos := 2, token_start := 0, token_end := some 2,
          result_symbol := some TokenType.RAW_TEXT }) :=
  ((raw_text_without_delimiter sample_header { tags := [SCRIPT] } (lexer_on [60, 60])
    SCRIPT rfl).2 (not_contains_delimiter_of_short _ _ (by decide))).1.trans (by decide)

/-- C15 (as stated) fails. With the top tag `SCRIPT` the input `x</scr` contains
no complete occurrence of `</SCRIPT`, and `scan_raw_text` consumes all six code
points but leaves the end boundary at position 1, before the trailing `</scr`.
And the input `a`, NUL, `b` contains no occurrence either, and `scan_raw_text`
stops at the NUL, with the end boundary at position 1 and not at the end of the
input. -/
theorem trailing_partial_delimiter_counterexample :
    (¬ contains_delimiter SCRIPT_END [120, 60, 47, 115, 99, 114] ∧
      scan_raw_text sample_header { tags := [SCRIPT] }
          (lexer_on [120, 60, 47, 115, 99, 114]) =
        (true, { tags := [SCRIPT] },
          { input := [], pos := 6, token_start := 0, token_end := some 1,
            result_symbol := some TokenType.RAW_TEXT })) ∧
    (¬ contains_delimiter SCRIPT_END [97, 0, 98] ∧
      scan_raw_text sample_header { tags := [SCRIPT] } (lexer_on [97, 0, 98]) =
        (true, { tags := [SCRIPT] },
          { input := [0, 98], pos := 1, token_start := 0, token_end := some 1,
            result_symbol := some TokenType.RAW_TEXT })) :=
  ⟨⟨not_contains_delimiter_of_short _ _ (by decide), by decide⟩,
    ⟨not_contains_delimiter_of_short _ _ (by decide), by decide⟩⟩

/-! ## Plain expressions over code points below 256 -/

theorem after_quoted_cons (q c : Nat) (cs : List Nat) :
    after_quoted q (c :: cs) =
      if c = q then some cs
      else if c = 92 then
        match cs with
        | [] => none
        | _ :: cs2 => after_quoted q cs2
      else after_quoted q cs := by
  cases cs <;> rfl

theorem after_quoted_length (q : Nat) :
    ∀ (n : Nat) (cs rest : List Nat), cs.length ≤ n → after_quoted q cs = some rest →
      rest.length < cs.length := by
  intro n
  induction n with
  | zero =>
    intro cs rest hlen h
    have : cs = [] := List.length_eq_zero.mp (Nat.le_zero.mp hlen)
    subst this
    simp [after_quoted] at h
  | succ n ih =>
    intro cs rest hlen h
    cases cs with
    | nil => simp [after_quoted] at h
    | cons c cs =>
      rw [after_quoted_cons] at h
      by_cases hq : c = q
      · rw [if_pos hq] at h
        cases h
        simp
      · rw [if_neg hq] at h
        by_cases hb : c = 92
        · rw [if_pos hb] at h
          cases cs with
          | nil => simp at h
          | cons e cs2 =>
            simp only at h
            have := ih cs2 rest (by simp only [List.length_cons] at hlen; omega) h
            simp only [List.length_cons]
            omega
        · rw [if_neg hb] at h
          have := ih cs rest (by simp only [List.length_cons] at hlen; omega) h
          simp only [List.length_cons]
          omega

theorem to_char_of_lt (c : Nat) (h : c < 256) : to_char c = c := Nat.mod_eq_of_lt h

theorem to_char_lookahead_cons (lexer : TSLexer) (c : Nat) (cs : List Nat)
    (h : lexer.input = c :: cs) (hc : c < 256) : to_char lexer.lookahead = c := by
  rw [lookahead_cons lexer c cs h, to_char_of_lt c hc]

theorem to_char_lookahead_nil (lexer : TSLexer) (h : lexer.input = []) :
    to_char lexer.lookahead = 0 := by
  simp [TSLexer.lookahead, h, to_char]

theorem advance_nil (lexer : TSLexer) (h : lexer.input = []) : lexer.advance false = lexer := by
  simp [TSLexer.advance, h]

/-- The inner loop of `scan_raw_text_expr` on a quoted literal that is terminated:
it stops at the closing quote. -/
theorem scan_quoted_loop_closed (q : Nat) (hq92 : q ≠ 92) (hq0 : q ≠ 0) (hq : q < 256) :
    ∀ (fuel : Nat) (cs rest : List Nat) (lexer : TSLexer),
      lexer.input = cs → cs.length + 1 ≤ fuel → (∀ c ∈ cs, c ≠ 0 ∧ c < 256) →
      after_quoted q cs = some rest →
      scan_quoted_loop q fuel lexer (to_char lexer.lookahead) =
        (consumed lexer (cs.length - rest.length - 1) (q :: rest), q) := by
  intro fuel
  induction fuel with
  | zero => intro cs rest lexer _ hf; omega
  | succ f ih =>
    intro cs rest lexer hin hf hbytes h
    cases cs with
    | nil => simp [after_quoted] at h
    | cons c cs =>
      have hc := hbytes c (List.mem_cons_self _ _)
      have hbytes2 : ∀ x ∈ cs, x ≠ 0 ∧ x < 256 :=
        fun x hx => hbytes x (List.mem_cons_of_mem _ hx)
      have hla := to_char_lookahead_cons lexer c cs hin hc.2
      have hadv := advance_cons lexer c cs hin
      rw [after_quoted_cons] at h
      rw [scan_quoted_loop, hla, if_neg hc.1]
      by_cases hcq : c = q
      · rw [if_pos hcq] at h
        cases h
        subst hcq
        simp only [if_neg hq92, if_true]
        have : (c :: rest).length - rest.length - 1 = 0 := by simp
        rw [this, ← hin]
        rfl
      · rw [if_neg hcq] at h
        by_cases hb : c = 92
        · rw [if_pos hb] at h
          cases cs with
          | nil => simp at h
          | cons e cs2 =>
            simp only at h
            have hlt := after_quoted_length q cs2.length cs2 rest (Nat.le_refl _) h
            have hadv2 := advance_cons (consumed lexer 1 (e :: cs2)) e cs2 rfl
            rw [consumed_consumed] at hadv2
            simp only [if_pos hb, if_neg hcq, hadv, hadv2]
            rw [ih cs2 rest (consumed lexer 2 cs2) rfl
              (by simp only [List.length_cons] at hf; omega)
              (fun x hx => hbytes2 x (List.mem_cons_of_mem _ hx)) h, consumed_consumed]
            congr 2
            simp only [List.length_cons]
            omega
        · rw [if_neg hb] at h
          have hlt := after_quoted_length q cs.length cs rest (Nat.le_refl _) h
          simp only [if_neg hb, if_neg hcq, hadv]
          rw [ih cs rest (consumed lexer 1 cs) rfl
            (by simp only [List.length_cons] at hf; omega) hbytes2 h, consumed_consumed]
          congr 2
          simp only [List.length_cons]
          omega

/-- The inner loop of `scan_raw_text_expr` on a quoted literal that is not
terminated: it consumes the rest of the input. -/
theorem scan_quoted_loop_open (q : Nat) :
    ∀ (fuel : Nat) (cs : List Nat) (lexer : TSLexer),
      lexer.input = cs → cs.length + 1 ≤ fuel → (∀ c ∈ cs, c ≠ 0 ∧ c < 256) →
      after_quoted q cs = none →
      (scan_quoted_loop q fuel lexer (to_char lexer.lookahead)).1 =
        consumed lexer cs.length [] := by
  intro fuel
  induction fuel with
  | zero => intro cs lexer _ hf; omega
  | succ f ih =>
    intro cs lexer hin hf hbytes h
    cases cs with
    | nil =>
      rw [scan_quoted_loop, to_char_lookahead_nil lexer hin, if_pos rfl]
      simp only [List.length_nil]
      rw [← hin]
      rfl
    | cons c cs =>
      have hc := hbytes c (List.mem_cons_self _ _)
      have hbytes2 : ∀ x ∈ cs, x ≠ 0 ∧ x < 256 :=
        fun x hx => hbytes x (List.mem_cons_of_mem _ hx)
      have hla := to_char_lookahead_cons lexer c cs hin hc.2
      have hadv := advance_cons lexer c cs hin
      rw [after_quoted_cons] at h
      rw [scan_quoted_loop, hla, if_neg hc.1]
      by_cases hcq : c = q
      · rw [if_pos hcq] at h
        exact absurd h (by simp)
      · rw [if_neg hcq] at h
        by_cases hb : c = 92
        · rw [if_pos hb] at h
          cases cs with
          | nil =>
            have hadv2 := advance_nil (consumed lexer 1 []) rfl
            simp only [if_pos hb, if_neg hcq, hadv, hadv2]
            rw [ih [] (consumed lexer 1 []) rfl
              (by simp only [List.length_cons] at hf; simp; omega) (by simp) rfl,
              consumed_consumed]
            rfl
          | cons e cs2 =>
            simp only at h
            have hadv2 := advance_cons (consumed lexer 1 (e :: cs2)) e cs2 rfl
            rw [consumed_consumed] at hadv2
            simp only [if_pos hb, if_neg hcq, hadv, hadv2]
            rw [ih cs2 (consumed lexer 2 cs2) rfl
              (by simp only [List.length_cons] at hf; omega)
              (fun x hx => hbytes2 x (List.mem_cons_of_mem _ hx)) h, consumed_consumed]
            congr 1
            simp only [List.length_cons]
            omega
        · rw [if_neg hb] at h
          simp only [if_neg hb, if_neg hcq, hadv]
          rw [ih cs (consumed lexer 1 cs) rfl
            (by simp only [List.length_cons] at hf; omega) hbytes2 h, consumed_consumed]
          congr 1
          simp only [List.length_cons]
          omega

theorem expr_token_advance (lexer : TSLexer) (c : Nat) (cs : List Nat) (m k : Nat)
    (rest : List Nat) (h : lexer.input = c :: cs) (hrest : rest = (c :: cs).drop m) :
    expr_token (consumed lexer m rest) k = expr_token lexer (k + m) := by
  subst hrest
  simp only [expr_token, consumed, h, List.drop_drop, Nat.add_assoc, Nat.add_comm m k]

theorem after_quoted_suffix (q : Nat) :
    ∀ (n : Nat) (cs rest : List Nat), cs.length ≤ n → after_quoted q cs = some rest →
      ∃ pre, cs = pre ++ rest := by
  intro n
  induction n with
  | zero =>
    intro cs rest hlen h
    have : cs = [] := List.length_eq_zero.mp (Nat.le_zero.mp hlen)
    subst this
    simp [after_quoted] at h
  | succ n ih =>
    intro cs rest hlen h
    cases cs with
    | nil => simp [after_quoted] at h
    | cons c cs =>
      rw [after_quoted_cons] at h
      by_cases hq : c = q
      · rw [if_pos hq] at h
        cases h
        exact ⟨[c], rfl⟩
      · rw [if_neg hq] at h
        by_cases hb : c = 92
        · rw [if_pos hb] at h
          cases cs with
          | nil => simp at h
          | cons e cs2 =>
            simp only at h
            obtain ⟨pre, hpre⟩ :=
              ih cs2 rest (by simp only [List.length_cons] at hlen; omega) h
            exact ⟨c :: e :: pre, by rw [hpre]; rfl⟩
        · rw [if_neg hb] at h
          obtain ⟨pre, hpre⟩ := ih cs rest (by simp only [List.length_cons] at hlen; omega) h
          exact ⟨c :: pre, by rw [hpre]; rfl⟩

theorem after_quoted_drop (q : Nat) (cs rest : List Nat) (h : after_quoted q cs = some rest) :
    cs.drop (cs.length - rest.length) = rest := by
  obtain ⟨pre, hpre⟩ := after_quoted_suffix q cs.length cs rest (Nat.le_refl _) h
  have hlen : cs.length - rest.length = pre.length := by
    rw [hpre, List.length_append]; omega
  rw [hlen]
  conv_lhs => rw [hpre]
  exact List.drop_left pre rest

theorem plain_outcome_step (lexer : TSLexer) (c : Nat) (cs rest : List Nat) (m : Nat)
    (r : Option Nat) (h : lexer.input = c :: cs) (hrest : rest = (c :: cs).drop m)
    (hm : m ≤ (c :: cs).length) :
    plain_outcome (consumed lexer m rest) r = plain_outcome lexer (r.map (fun k => k + m)) := by
  cases r with
  | some k =>
    simp only [plain_outcome, Option.map_some']
    rw [expr_token_advance lexer c cs m k rest h hrest]
  | none =>
    simp only [plain_outcome, Option.map_none', consumed_consumed]
    congr 2
    simp only [consumed, h, hrest, List.length_drop]
    omega

theorem plain_outcome_at_end (lexer : TSLexer) (h : lexer.input = []) :
    plain_outcome lexer none = (false, lexer) := by
  cases lexer
  simp_all [plain_outcome, consumed]

/-- The outer loop of `scan_raw_text_expr` in plain mode on a text of code points
below 256 without NUL: it succeeds at the first `}` that lies outside quoted
literals at brace depth 0 and marks the end before it; when there is none it
consumes the input and fails. -/
theorem scan_raw_text_expr_loop_plain :
    ∀ (n : Nat) (text : List Nat) (depth f : Nat) (lexer : TSLexer),
      text.length ≤ n → lexer.input = text → text.length + 1 ≤ f →
      (∀ c ∈ text, c ≠ 0 ∧ c < 256) →
      scan_raw_text_expr_loop TokenType.RAW_TEXT_EXPR f lexer (to_char lexer.lookahead)
          (depth : Int) =
        Except.ok (plain_outcome lexer (expr_end_from n depth text)) := by
  have hend : ∀ (f : Nat) (lexer : TSLexer) (d : Int), lexer.input = [] → 1 ≤ f →
      scan_raw_text_expr_loop TokenType.RAW_TEXT_EXPR f lexer (to_char lexer.lookahead) d =
        Except.ok (plain_outcome lexer none) := by
    intro f lexer d hin hf
    cases f with
    | zero => omega
    | succ f2 =>
      rw [scan_raw_text_expr_loop]
      simp only []
      rw [to_char_lookahead_nil lexer hin, if_pos rfl, plain_outcome_at_end lexer hin]
  intro n
  induction n with
  | zero =>
    intro text depth f lexer hlen hin hf _
    have hnil : text = [] := List.length_eq_zero.mp (Nat.le_zero.mp hlen)
    subst hnil
    rw [hend f lexer _ hin (by simpa using hf)]
    rfl
  | succ n ih =>
    intro text depth f lexer hlen hin hf hbytes
    cases text with
    | nil =>
      rw [hend f lexer _ hin (by simpa using hf)]
      rfl
    | cons c cs =>
      have hc := hbytes c (List.mem_cons_self _ _)
      have hbytes2 : ∀ x ∈ cs, x ≠ 0 ∧ x < 256 :=
        fun x hx => hbytes x (List.mem_cons_of_mem _ hx)
      have hla := to_char_lookahead_cons lexer c cs hin hc.2
      have hadv := advance_cons lexer c cs hin
      cases f with
      | zero => omega
      | succ f2 =>
        have hf2 : cs.length + 1 ≤ f2 := by simp only [List.length_cons] at hf; omega
        have hn : cs.length ≤ n := by simp only [List.length_cons] at hlen; omega
        have hnext : ∀ d2 : Nat,
            scan_raw_text_expr_loop TokenType.RAW_TEXT_EXPR f2 (consumed lexer 1 cs)
              (to_char (consumed lexer 1 cs).lookahead) (d2 : Int) =
            Except.ok (plain_outcome lexer
              ((expr_end_from n d2 cs).map (fun k => k + 1))) := by
          intro d2
          rw [ih cs d2 f2 (consumed lexer 1 cs) hn rfl hf2 hbytes2,
            plain_outcome_step lexer c cs cs 1 _ hin rfl (by simp)]
        rw [scan_raw_text_expr_loop]
        simp only [hla, hadv, if_neg hc.1]
        rw [expr_end_from]
        by_cases h123 : c = 123
        · rw [if_pos h123, if_pos h123]
          have hcast : ((depth : Int) + 1) = ((depth + 1 : Nat) : Int) := by omega
          rw [hcast, hnext]
        · rw [if_neg h123, if_neg h123]
          by_cases h125 : c = 125
          · rw [if_pos h125, if_pos h125]
            by_cases hd : depth = 0
            · subst hd
              simp only [Nat.cast_zero, Int.le_refl, if_true, plain_outcome, expr_token,
                TSLexer.mark_end, TSLexer.set_result_symbol, List.drop_zero, Nat.add_zero]
            · have hnot : ¬ ((depth : Int) ≤ 0) := by omega
              have hcast : ((depth : Int) - 1) = ((depth - 1 : Nat) : Int) := by omega
              rw [if_neg hnot, if_neg hd, hcast, hnext]
          · rw [if_neg h125, if_neg h125]
            by_cases hws : c = 10 ∨ c = 9 ∨ c = 41 ∨ c = 32
            · have hnq : ¬ (c = 34 ∨ c = 39 ∨ c = 96) := by omega
              rw [if_pos hws, if_neg hnq]
              simp only [reduceCtorEq, or_self, if_false]
              exact hnext depth
            · rw [if_neg hws]
              by_cases hq : c = 34 ∨ c = 39 ∨ c = 96
              · rw [if_pos hq, if_pos hq]
                have hin1 : (consumed lexer 1 cs).input = cs := rfl
                cases haq : after_quoted c cs with
                | none =>
                  simp only []
                  rw [hin1, scan_quoted_loop_open c (cs.length + 1) cs (consumed lexer 1 cs) rfl
                    (Nat.le_refl _) hbytes2 haq, consumed_consumed]
                  rw [advance_nil _ rfl, hend f2 _ _ rfl (by omega)]
                  rw [plain_outcome_at_end _ rfl]
                  simp only [plain_outcome, hin, List.length_cons, Nat.add_comm]
                | some rest =>
                  simp only []
                  have hlt := after_quoted_length c cs.length cs rest (Nat.le_refl _) haq
                  have hdrop := after_quoted_drop c cs rest haq
                  rw [hin1, scan_quoted_loop_closed c (by omega) (by omega) (by omega)
                    (cs.length + 1) cs rest (consumed lexer 1 cs) rfl (Nat.le_refl _) hbytes2
                    haq, consumed_consumed]
                  rw [advance_cons _ c rest rfl, consumed_consumed]
                  have hm : 1 + (cs.length - rest.length - 1) + 1 =
                      1 + (cs.length - rest.length) := by omega
                  rw [hm, ih rest depth f2 _ (by omega) rfl (by omega)
                    (fun x hx => hbytes2 x (by rw [← hdrop] at hx; exact List.mem_of_mem_drop hx)),
                    plain_outcome_step lexer c cs rest (1 + (cs.length - rest.length)) _ hin
                      (by rw [Nat.add_comm, List.drop_succ_cons, hdrop])
                      (by simp only [List.length_cons]; omega)]
              · rw [if_neg hq, if_neg hq]
                exact hnext depth

/-- In plain-expression mode, on an input of code points below 256 without NUL,
`scan_raw_text_expr` succeeds exactly when the input has a `}` outside quoted
literals at brace depth 0; the token is then `RAW_TEXT_EXPR`, the end boundary
is immediately before the first such `}` and the `}` is not consumed. Otherwise
the input is consumed and the scan fails. -/
theorem scan_raw_text_expr_plain (lexer : TSLexer)
    (hbytes : ∀ c ∈ lexer.input, c ≠ 0 ∧ c < 256) :
    scan_raw_text_expr lexer TokenType.RAW_TEXT_EXPR =
      Except.ok (plain_outcome lexer (expr_end lexer.input)) := by
  have h := scan_raw_text_expr_loop_plain lexer.input.length lexer.input 0
    (lexer.input.length + 1) lexer (Nat.le_refl _) rfl (Nat.le_refl _) hbytes
  simpa [scan_raw_text_expr, expr_end] using h

/-- The examples of the spec for plain expressions: in ` foo({a:1}) }` the token
ends at position 12, before the final `}`, and in `"}"}` it ends at position 3,
before the trailing unquoted `}`. -/
theorem scan_raw_text_expr_plain_examples :
    scan_raw_text_expr
        (lexer_on [32, 102, 111, 111, 40, 123, 97, 58, 49, 125, 41, 32, 125])
        TokenType.RAW_TEXT_EXPR =
      Except.ok (true,
        { input := [125], pos := 12, token_start := 0, token_end := some 12,
          result_symbol := some TokenType.RAW_TEXT_EXPR }) ∧
    scan_raw_text_expr (lexer_on [34, 125, 34, 125]) TokenType.RAW_TEXT_EXPR =
      Except.ok (true,
        { input := [125], pos := 3, token_start := 0, token_end := some 3,
          result_symbol := some TokenType.RAW_TEXT_EXPR }) :=
  ⟨(scan_raw_text_expr_plain
      (lexer_on [32, 102, 111, 111, 40, 123, 97, 58, 49, 125, 41, 32, 125])
      (by decide)).trans (by decide),
    (scan_raw_text_expr_plain (lexer_on [34, 125, 34, 125]) (by decide)).trans (by decide)⟩

end Svelte
